import Mathlib

/-!
Verification development for the hyperpack module-bundling engine.

The Rust sources are shallowly embedded as executable Lean definitions:
file contents are token sequences (plain text interleaved with import
statements, mirroring what the regex scans of the source extract), the
filesystem is an association list from path strings to contents, mutable
state threaded through mutable references becomes explicit state passing,
and the unbounded recursions of the source are given an explicit fuel
parameter together with sufficiency lemmas.
-/

namespace Hyperpack

/-! ## Character-list string helpers -/

/-- Split a character list at every occurrence of the separator character. -/
def splitCh (c : Char) : List Char → List (List Char)
  | [] => [[]]
  | a :: as =>
    let r := splitCh c as
    if a = c then [] :: r
    else
      match r with
      | [] => [[a]]
      | g :: gs => (a :: g) :: gs

/-- Join character-list groups with a separator character. -/
def joinSep (c : Char) : List (List Char) → List Char
  | [] => []
  | [g] => g
  | g :: gs => g ++ c :: joinSep c gs

/-- Whether the second list is an initial segment of the first. -/
def leadsWith : List Char → List Char → Bool
  | _, [] => true
  | [], _ :: _ => false
  | a :: as, b :: bs => a = b && leadsWith as bs

/-- Number of positions at which the pattern occurs in the list. -/
def occCount : List Char → List Char → Nat
  | [], pat => if pat = [] then 1 else 0
  | a :: as, pat => (if leadsWith (a :: as) pat then 1 else 0) + occCount as pat

/-- Whether the pattern occurs as a substring (`str::contains`). -/
def containsSub (s pat : String) : Bool :=
  occCount s.data pat.data != 0

/-- Number of occurrences of a pattern string inside a string. -/
def strCount (s pat : String) : Nat :=
  occCount s.data pat.data

/-- Join strings with a separator (`Vec::join` of Rust). -/
def joinWith (sep : String) : List String → String
  | [] => ""
  | [a] => a
  | a :: as => a ++ sep ++ joinWith sep as

/-- Whether a string starts with the given character. -/
def headIs (s : String) (c : Char) : Bool :=
  match s.data with
  | [] => false
  | a :: _ => a = c

/-- Whether a string ends with the given character. -/
def lastIs (s : String) (c : Char) : Bool :=
  match s.data.reverse with
  | [] => false
  | a :: _ => a = c

/-! ## Path-string helpers (mirroring the `std::path` operations used by the sources) -/

/-- The file name of a path: the component after the last slash
(`Path::file_name`, collapsed to the whole string when no slash occurs). -/
def fileName (p : String) : String :=
  match (splitCh '/' p.data).reverse with
  | [] => p
  | last :: _ => String.mk last

/-- The parent of a path: everything before the last slash
(`Path::parent`, with the empty path for a relative single component as in
the `unwrap_or` of the sources; an absolute path keeps its root slash). -/
def parentDir (p : String) : String :=
  match (splitCh '/' p.data).reverse with
  | [] => ""
  | _ :: [] => ""
  | _ :: rest =>
    let pre := joinSep '/' rest.reverse
    if pre = [] then "/" else String.mk pre

/-- `Path::join`: an absolute right operand replaces the base, otherwise the
two are concatenated with a slash. -/
def pjoin (p q : String) : String :=
  if headIs q '/' then q
  else if p = "" then q
  else if lastIs p '/' then p ++ q
  else p ++ "/" ++ q

/-- The extension of a path: the part of the file name after the last dot,
absent when the file name has no dot or only a leading dot
(`Path::extension`). -/
def extOf (p : String) : Option String :=
  let name := (fileName p).data
  match (splitCh '.' name).reverse with
  | [] => none
  | _ :: [] => none
  | e :: rest =>
    if rest.reverse.headD [] = [] then none else some (String.mk e)

/-- `Path::set_extension` with a nonempty extension: replace the extension
of the file name (or append one). -/
def setExt (p ext : String) : String :=
  let dir := parentDir p
  let name := (fileName p).data
  let stem :=
    match (splitCh '.' name).reverse with
    | [] => name
    | _ :: [] => name
    | _ :: rest =>
      if rest.reverse.headD [] = [] then name else joinSep '.' rest.reverse
  let newName := String.mk stem ++ "." ++ ext
  if dir = "" then newName
  else if dir = "/" then "/" ++ newName
  else dir ++ "/" ++ newName

/-! ## Module contents as token sequences

The sources treat file contents as opaque text scanned by a regex for
the import statements (`import "path";` and kin).  A content is embedded as a
list of fragments: literal text pieces and import statements.  The regex
captures are the import fragments in order, and `String::replace` of a
captured import statement becomes replacement of the matching import
fragments by a text fragment. -/

inductive Frag where
  | text (s : String)
  | imp (path : String)
deriving DecidableEq, Repr

/-- Render a fragment back to source text (the canonical `import "p";` form
matched by the regexes of both the bundler and the splitter). -/
def Frag.render : Frag → String
  | .text s => s
  | .imp p => "import \"" ++ p ++ "\";"

/-- Render a whole content. -/
def renderContent (c : List Frag) : String :=
  String.join (c.map Frag.render)

/-- The import paths captured by the regex scan, in textual order
(`captures_iter` over the original content). -/
def capturesOf (c : List Frag) : List String :=
  c.filterMap fun f => match f with | .imp p => some p | _ => none

/-- `String::replace` of the full matched import statement for path `i` by
the replacement text `r`: every import fragment for `i` becomes a text
fragment. -/
def replaceImp (c : List Frag) (i : String) (r : String) : List Frag :=
  c.map fun f => match f with
    | .imp j => if j = i then .text r else f
    | .text s => .text s

/-- The modeled source tree: an association list from path strings to file
contents (first binding wins, as a map). -/
def SrcFS := List (String × List Frag)

instance : DecidableEq SrcFS := by unfold SrcFS; infer_instance

/-- Look a path up in the source tree (`fs::read_to_string`; the
`exists()` test of the sources is definedness of this lookup). -/
def SrcFS.read (fs : SrcFS) (p : String) : Option (List Frag) :=
  match fs with
  | [] => none
  | (q, c) :: rest => if q = p then some c else SrcFS.read rest p

/-- The paths present in the source tree. -/
def SrcFS.keys (fs : SrcFS) : List String :=
  match fs with
  | [] => []
  | (q, _) :: rest => q :: SrcFS.keys rest

/-- The unread portion of the source tree, the termination measure of the
recursive bundler. -/
def bMeasure (fs : SrcFS) (seen : List String) : Nat :=
  ((fs.keys).toFinset \ seen.toFinset).card

/-! ## `bundler.rs`: `bundle_js_file`

`bundle_js_file(path, seen_files)` returns the bundled string; `seen_files`
is threaded as explicit state, and the embedding additionally records the
paths whose contents were read, in read order (to state the read-once
properties).  Errors distinguish fuel exhaustion (the recursion of the
source is unbounded) from a read failure. -/

inductive BErr where
  | fuel
  | readFail (p : String)
deriving DecidableEq, Repr

/-- The loop body over the captured import statements of `bundle_js_file`,
parameterized by the recursive call `rec`: each import whose joined path
exists is bundled recursively and spliced into the modified code in place
of its import statement. -/
def bundleImports (rec : SrcFS → String → List String →
      Except BErr (String × List String × List String))
    (fs : SrcFS) (path : String) :
    List String → List Frag → List String →
      Except BErr (List Frag × List String × List String)
  | [], modified, seen => .ok (modified, seen, [])
  | i :: rest, modified, seen =>
    let full := pjoin (parentDir path) i
    if (fs.read full).isSome then
      match rec fs full seen with
      | .error e => .error e
      | .ok (icode, seen', reads1) =>
        match bundleImports rec fs path rest (replaceImp modified i icode) seen' with
        | .error e => .error e
        | .ok (m2, seen2, reads2) => .ok (m2, seen2, reads1 ++ reads2)
    else
      bundleImports rec fs path rest modified seen

/-- `bundle_js_file` of src/src/src/bundler/bundler.rs: if the path was
already seen return the empty string, otherwise mark it seen, read it,
splice every existing import recursively in place of its import statement,
and append a newline.  The result triple is (bundled code, seen set, read
log). -/
def bundle_js_file : Nat → SrcFS → String → List String →
    Except BErr (String × List String × List String)
  | 0, _, _, _ => .error .fuel
  | fuel + 1, fs, path, seen =>
    if path ∈ seen then .ok ("", seen, [])
    else
      match fs.read path with
      | none => .error (.readFail path)
      | some code =>
        match bundleImports (bundle_js_file fuel) fs path (capturesOf code) code (path :: seen) with
        | .error e => .error e
        | .ok (modified, seen2, reads) =>
          .ok (renderContent modified ++ "\n", seen2, path :: reads)

/-! ## `resolver.rs`: `resolve_path` and its helpers

The resolver works on path strings over a modeled filesystem providing
`fs::metadata` (existence, regular-file flag, read-only permission bit)
and `Path::canonicalize`, plus the ambient process environment.  The
`PluginManager` of the source is a placeholder whose `resolve` always
returns `None`, and `load_config` is represented by its result. -/

structure FMeta where
  isFile : Bool
  readonly : Bool
deriving DecidableEq, Repr

/-- The filesystem as the resolver sees it: metadata per path, and the
canonicalization table (`Path::canonicalize` succeeds exactly on the
tabulated paths). -/
structure VFS where
  metadataTab : List (String × FMeta)
  canonTab : List (String × String)
deriving Repr

/-- `fs::metadata`. -/
def VFS.metadata (fs : VFS) (p : String) : Option FMeta :=
  fs.metadataTab.lookup p

/-- `Path::exists` (metadata succeeds). -/
def VFS.pathExists (fs : VFS) (p : String) : Bool :=
  (fs.metadata p).isSome

/-- `Path::canonicalize` with the `unwrap_or_else` fallback of the source:
a path missing from the canonicalization table is kept as is. -/
def VFS.canonOr (fs : VFS) (p : String) : String :=
  (fs.canonTab.lookup p).getD p

/-- The process environment. -/
def Env := String → Option String

/-- `load_env_variable_path` of src/src/src/resolver.rs. -/
def load_env_variable_path (env : Env) (variableName : String) : Option String :=
  env variableName

/-- The resolver configuration (`Config` of src/src/src/resolver.rs);
`paths` is carried but never consulted by `resolve_path`, exactly as in
the source. -/
structure RConfig where
  paths : List (String × String)
  extensions : List String
deriving Repr

/-- `PluginManager::resolve` of src/src/src/resolver.rs: a placeholder that
always returns `None`. -/
def pluginResolve (_path : String) : Option String :=
  none

/-- `verify_path_security` of src/src/src/resolver.rs: metadata must
succeed, name a regular file, and the permissions must not be read-only. -/
def verify_path_security (fs : VFS) (p : String) : Bool :=
  match fs.metadata p with
  | some m => m.isFile && !m.readonly
  | none => false

/-- A `\w` character of the resolver regex (ASCII word character). -/
def wordChar (c : Char) : Bool :=
  c.isAlphanum || c = '_'

/-- A character of the `path` capture class `[./\w-]`. -/
def pathChar (c : Char) : Bool :=
  wordChar c || c = '.' || c = '/' || c = '-'

/-- The first match of the resolver regex
`(?P<path>[./\w-]+)(?:#(?P<fragment>[\w-]+))?` on a string: the leftmost
maximal run of path characters, optionally followed by a hash sign and a
nonempty run of word characters.  Returns the `path` and optional
`fragment` captures. -/
def firstCapture : List Char → Option (String × Option String)
  | [] => none
  | c :: cs =>
    if pathChar c then
      let pathRun := (c :: cs).takeWhile pathChar
      let rest := (c :: cs).dropWhile pathChar
      let frag :=
        match rest with
        | '#' :: fs =>
          let fragRun := fs.takeWhile wordChar
          if fragRun = [] then none else some (String.mk fragRun)
        | _ => none
      some (String.mk pathRun, frag)
    else
      firstCapture cs

/-- `try_alternate_resolutions` of src/src/src/resolver.rs: try each
configured fallback extension in order and return the first candidate
that exists. -/
def try_alternate_resolutions (fs : VFS) (p : String) (config : RConfig) : Option String :=
  config.extensions.findSome? fun ext =>
    let newPath := setExt p ext
    if fs.pathExists newPath then some newPath else none

/-- The path `resolve_path` computes before its final security check: the
regex-driven resolution against the parent directory of `base`, the
fragment-extension rewrite, the conditional canonicalization of paths
containing a dot-dot, the fallback extensions, and finally the
`RESOLVED_PATH` environment override. -/
def resolveCandidate (fs : VFS) (env : Env) (config : RConfig)
    (base importPath : String) : String :=
  let baseDir := parentDir base
  let resolved :=
    match firstCapture importPath.data with
    | some (pathMatch, fragOpt) =>
      let r0 :=
        if leadsWith pathMatch.data "./".data || leadsWith pathMatch.data "../".data then
          pjoin baseDir pathMatch
        else pathMatch
      let r1 :=
        match fragOpt with
        | some frag => setExt r0 (frag ++ ".ext")
        | none => r0
      let r2 := if containsSub r1 ".." then fs.canonOr r1 else r1
      if !fs.pathExists r2 then
        match try_alternate_resolutions fs r2 config with
        | some alt => alt
        | none => r2
      else r2
    | none => pjoin baseDir importPath
  match load_env_variable_path env "RESOLVED_PATH" with
  | some envPath => envPath
  | none => resolved

/-- `resolve_path` of src/src/src/resolver.rs.  The `configResult`
argument is the outcome of `load_config`; a failed load yields the empty
string, a plugin hit would be returned untouched (the placeholder plugin
never fires), and otherwise the computed candidate is returned exactly
when it passes `verify_path_security`, the empty string otherwise. -/
def resolve_path (fs : VFS) (env : Env) (configResult : Except String RConfig)
    (base importPath : String) : String :=
  match configResult with
  | .error _ => ""
  | .ok config =>
    match pluginResolve importPath with
    | some newPath => newPath
    | none =>
      let cand := resolveCandidate fs env config base importPath
      if !verify_path_security fs cand then ""
      else cand

/-! ## `treeshake.rs`: `tree_shaker` and `remove_unreachable_nodes`

A `Node` carries its identifier and dependency identifiers; the graph is
an association list from identifier to dependency list (the iteration
order of the `HashSet` of dependencies is fixed by the list).  The
worklist loop of the source runs on explicit fuel; `tree_shaker` applies
it with a sufficient bound. -/

/-- The dependency graph: node identifier to dependency identifiers. -/
def Graph := List (String × List String)

instance : DecidableEq Graph := by unfold Graph; infer_instance

/-- `nodes.get(&id)` with the dependency list of the node, empty when the
identifier has no node. -/
def depsOf (nodes : Graph) (id : String) : List String :=
  (nodes.lookup id).getD []

/-- One run of the `while let Some(id) = to_visit.pop()` loop of
`tree_shaker`: the head of `toVisit` is the top of the stack, a popped
identifier is inserted into `reachable` unless already present, and its
not-yet-reachable dependencies are pushed.  `none` means the fuel ran
out before the stack drained. -/
def treeShakerLoop : Nat → Graph → List String → List String → Option (List String)
  | 0, _, _, _ => none
  | fuel + 1, nodes, reachable, toVisit =>
    match toVisit with
    | [] => some reachable
    | id :: rest =>
      if id ∈ reachable then treeShakerLoop fuel nodes reachable rest
      else
        let reachable' := id :: reachable
        let pushes := (depsOf nodes id).filter fun d => d ∉ reachable'
        treeShakerLoop fuel nodes reachable' (pushes.reverse ++ rest)

/-- A fuel bound that always drains the stack: every loop iteration pops
one entry, and an identifier is inserted at most once, releasing at most
its dependency count of pushes. -/
def tsBound (nodes : Graph) (toVisit : List String) : Nat :=
  toVisit.length + (nodes.map fun kv => kv.2.length + 1).sum + 1

/-- `tree_shaker` of src/src/src/bundler/treeshake.rs: iterative
reachability from the entry points (the source collects the entry slice
into the initial `to_visit` vector, so the last entry is popped first). -/
def tree_shaker (nodes : Graph) (entryPoints : List String) : List String :=
  (treeShakerLoop (tsBound nodes entryPoints.reverse) nodes [] entryPoints.reverse).getD []

/-- `remove_unreachable_nodes` of src/src/src/bundler/treeshake.rs: keep
exactly the graph entries whose identifier is reachable. -/
def remove_unreachable_nodes (nodes : Graph) (reachable : List String) : Graph :=
  nodes.filter fun kv => kv.1 ∈ reachable

/-- Transitive reachability from the entry points, as the specification
words it: an identifier is reachable when it is an entry point or a
dependency of a reachable identifier. -/
inductive SpecReachable (nodes : Graph) (entryPoints : List String) : String → Prop where
  | entry (x : String) : x ∈ entryPoints → SpecReachable nodes entryPoints x
  | step (x y : String) : SpecReachable nodes entryPoints y → x ∈ depsOf nodes y →
      SpecReachable nodes entryPoints x

/-- A dependency path of at least one edge between two identifiers; a
cycle member is an identifier with such a path to itself. -/
inductive DepPath (nodes : Graph) : String → String → Prop where
  | edge (x y : String) : y ∈ depsOf nodes x → DepPath nodes x y
  | cons (x y z : String) : y ∈ depsOf nodes x → DepPath nodes y z → DepPath nodes x z

/-- The weight of one graph node relative to a reachable set: zero once
marked reachable, otherwise its dependency count plus one. -/
def nodeW (r : List String) (kv : String × List String) : Nat :=
  if kv.1 ∈ r then 0 else kv.2.length + 1

/-- The total weight of the graph nodes not yet marked reachable. -/
def graphW (nodes : Graph) (r : List String) : Nat :=
  (nodes.map (nodeW r)).sum

/-- The termination measure of the tree-shaker loop: pending stack entries
plus the weight of the nodes not yet marked reachable. -/
def tsMeasure (nodes : Graph) (reachable toVisit : List String) : Nat :=
  toVisit.length + graphW nodes reachable

/-- The example graph of the tree-shaking scenario: entry A depends on B,
and C is unreferenced. -/
def exGraphABC : Graph := [("A", ["B"]), ("B", []), ("C", [])]

/-- The example cyclic graph: A imports B and B imports A. -/
def cycleGraphAB : Graph := [("A", ["B"]), ("B", ["A"])]

/-! ## `sourcemap.rs`: mappings serialization, validation, merge

JSON documents are embedded with integral numbers (every number the
source-map code inspects is integral; `as_u64` succeeds exactly on the
non-negative ones).  Indexing a non-object or a missing key yields JSON
null, as with `serde_json::Value::index`. -/

inductive Json where
  | null
  | bool (b : Bool)
  | num (n : Int)
  | str (s : String)
  | arr (xs : List Json)
  | obj (kvs : List (String × Json))

mutual

/-- Decidable equality on JSON values (hand-written, since deriving does
not yet handle the nesting). -/
def Json.decEq : (a b : Json) → Decidable (a = b)
  | .null, .null => isTrue rfl
  | .bool a, .bool b =>
    if h : a = b then isTrue (by rw [h])
    else isFalse (by intro c; injection c; contradiction)
  | .num a, .num b =>
    if h : a = b then isTrue (by rw [h])
    else isFalse (by intro c; injection c; contradiction)
  | .str a, .str b =>
    if h : a = b then isTrue (by rw [h])
    else isFalse (by intro c; injection c; contradiction)
  | .arr xs, .arr ys =>
    match Json.decEqList xs ys with
    | isTrue h => isTrue (by rw [h])
    | isFalse h => isFalse (by intro c; injection c; contradiction)
  | .obj xs, .obj ys =>
    match Json.decEqObj xs ys with
    | isTrue h => isTrue (by rw [h])
    | isFalse h => isFalse (by intro c; injection c; contradiction)
  | .null, .bool _ => isFalse (by intro c; exact Json.noConfusion c)
  | .null, .num _ => isFalse (by intro c; exact Json.noConfusion c)
  | .null, .str _ => isFalse (by intro c; exact Json.noConfusion c)
  | .null, .arr _ => isFalse (by intro c; exact Json.noConfusion c)
  | .null, .obj _ => isFalse (by intro c; exact Json.noConfusion c)
  | .bool _, .null => isFalse (by intro c; exact Json.noConfusion c)
  | .bool _, .num _ => isFalse (by intro c; exact Json.noConfusion c)
  | .bool _, .str _ => isFalse (by intro c; exact Json.noConfusion c)
  | .bool _, .arr _ => isFalse (by intro c; exact Json.noConfusion c)
  | .bool _, .obj _ => isFalse (by intro c; exact Json.noConfusion c)
  | .num _, .null => isFalse (by intro c; exact Json.noConfusion c)
  | .num _, .bool _ => isFalse (by intro c; exact Json.noConfusion c)
  | .num _, .str _ => isFalse (by intro c; exact Json.noConfusion c)
  | .num _, .arr _ => isFalse (by intro c; exact Json.noConfusion c)
  | .num _, .obj _ => isFalse (by intro c; exact Json.noConfusion c)
  | .str _, .null => isFalse (by intro c; exact Json.noConfusion c)
  | .str _, .bool _ => isFalse (by intro c; exact Json.noConfusion c)
  | .str _, .num _ => isFalse (by intro c; exact Json.noConfusion c)
  | .str _, .arr _ => isFalse (by intro c; exact Json.noConfusion c)
  | .str _, .obj _ => isFalse (by intro c; exact Json.noConfusion c)
  | .arr _, .null => isFalse (by intro c; exact Json.noConfusion c)
  | .arr _, .bool _ => isFalse (by intro c; exact Json.noConfusion c)
  | .arr _, .num _ => isFalse (by intro c; exact Json.noConfusion c)
  | .arr _, .str _ => isFalse (by intro c; exact Json.noConfusion c)
  | .arr _, .obj _ => isFalse (by intro c; exact Json.noConfusion c)
  | .obj _, .null => isFalse (by intro c; exact Json.noConfusion c)
  | .obj _, .bool _ => isFalse (by intro c; exact Json.noConfusion c)
  | .obj _, .num _ => isFalse (by intro c; exact Json.noConfusion c)
  | .obj _, .str _ => isFalse (by intro c; exact Json.noConfusion c)
  | .obj _, .arr _ => isFalse (by intro c; exact Json.noConfusion c)

/-- Decidable equality on JSON value lists. -/
def Json.decEqList : (a b : List Json) → Decidable (a = b)
  | [], [] => isTrue rfl
  | [], _ :: _ => isFalse (by intro c; exact List.noConfusion c)
  | _ :: _, [] => isFalse (by intro c; exact List.noConfusion c)
  | a :: as, b :: bs =>
    match Json.decEq a b with
    | isFalse h => isFalse (by intro c; injection c; contradiction)
    | isTrue h1 =>
      match Json.decEqList as bs with
      | isTrue h2 => isTrue (by rw [h1, h2])
      | isFalse h2 => isFalse (by intro c; injection c; contradiction)

/-- Decidable equality on JSON object member lists. -/
def Json.decEqObj : (a b : List (String × Json)) → Decidable (a = b)
  | [], [] => isTrue rfl
  | [], _ :: _ => isFalse (by intro c; exact List.noConfusion c)
  | _ :: _, [] => isFalse (by intro c; exact List.noConfusion c)
  | (k, a) :: as, (l, b) :: bs =>
    if hk : k = l then
      match Json.decEq a b with
      | isFalse h => isFalse (by intro c; injection c with c1 c2; injection c1; contradiction)
      | isTrue hv =>
        match Json.decEqObj as bs with
        | isTrue h2 => isTrue (by rw [hk, hv, h2])
        | isFalse h2 => isFalse (by intro c; injection c; contradiction)
    else isFalse (by intro c; injection c with c1 c2; injection c1; contradiction)

end

instance : DecidableEq Json := Json.decEq

/-- `value[key]` of `serde_json`: member lookup on objects, null
otherwise. -/
def Json.index (j : Json) (k : String) : Json :=
  match j with
  | .obj kvs => (kvs.lookup k).getD .null
  | _ => .null

/-- `Value::is_number`. -/
def Json.isNum : Json → Bool
  | .num _ => true
  | _ => false

/-- `Value::is_string`. -/
def Json.isStr : Json → Bool
  | .str _ => true
  | _ => false

/-- `Value::is_array`. -/
def Json.isArr : Json → Bool
  | .arr _ => true
  | _ => false

/-- `Value::as_u64` on the integral embedding. -/
def Json.asU64 : Json → Option Int
  | .num n => if 0 ≤ n then some n else none
  | _ => none

/-- `Value::as_array` defaulted to the empty vector
(`as_array().unwrap_or(&vec![])`). -/
def Json.asArrD : Json → List Json
  | .arr xs => xs
  | _ => []

/-- `Value::as_str` defaulted to the empty string
(`as_str().unwrap_or("")`). -/
def Json.asStrD : Json → String
  | .str s => s
  | _ => ""

/-- A position mapping record (`Mapping` of src/src/src/sourcemap.rs). -/
structure Mapping where
  original_line : Nat
  original_column : Nat
  generated_line : Nat
  generated_column : Nat
  name_index : Option Nat
deriving DecidableEq, Repr

/-- The per-line grouping of `generate_mappings_string`: the
`lines.entry(..).or_default().push(..)` loop, which preserves the record
order within each generated line.  The association list is in first-key
insertion order; the iteration order of the Rust `HashMap` over these
keys is a run-dependent permutation and is passed separately. -/
def groupByLine (ms : List Mapping) : List (Nat × List Mapping) :=
  ms.foldl
    (fun acc m =>
      if acc.any fun kv => kv.1 = m.generated_line then
        acc.map fun kv =>
          if kv.1 = m.generated_line then (kv.1, kv.2 ++ [m]) else kv
      else acc ++ [(m.generated_line, [m])])
    []

/-- One serialized segment of `generate_mappings_string`:
original line, colon, original column, comma, generated column, comma,
name index defaulted to zero. -/
def segString (m : Mapping) : String :=
  toString m.original_line ++ ":" ++ toString m.original_column ++ "," ++
    toString m.generated_column ++ "," ++ toString (m.name_index.getD 0)

/-- `generate_mappings_string` of src/src/src/sourcemap.rs.  `keyOrder`
is the iteration order of `lines.into_iter()` over the generated-line
keys (a permutation of the keys chosen by the `HashMap` hasher at run
time); each group joins its segments with commas and groups are joined
with semicolons. -/
def generate_mappings_string (ms : List Mapping) (keyOrder : List Nat) : String :=
  let groups := groupByLine ms
  joinWith ";" (keyOrder.filterMap fun k =>
    (groups.lookup k).map fun lineMs =>
      joinWith "," (lineMs.map segString))

/-- `validate_source_map` of src/src/src/sourcemap.rs, applied to the
parsed document: the version must be a number matching 3 or 2, `file`
and `mappings` must be strings, and `sources`, `sourcesContent` and
`names` must be arrays; the error carries the message of the
`io::Error::new(InvalidData, ..)` of the source. -/
def validate_source_map (j : Json) : Except String Unit :=
  if !((j.index "version").isNum && ((j.index "version").asU64 = some 3 ∨ (j.index "version").asU64 = some 2)) then
    .error "Unsupported source map version"
  else if !(j.index "file").isStr then
    .error "Missing or invalid file field"
  else if !(j.index "sources").isArr then
    .error "Missing or invalid sources field"
  else if !(j.index "sourcesContent").isArr then
    .error "Missing or invalid sourcesContent field"
  else if !(j.index "names").isArr then
    .error "Missing or invalid names field"
  else if !(j.index "mappings").isStr then
    .error "Missing or invalid mappings field"
  else
    .ok ()

/-- Modelled from the specification words for validation: the version
field holds a supported number (the versions 3 and 2 accepted by the
loader). -/
def specVersionSupported (j : Json) : Prop :=
  j.index "version" = .num 2 ∨ j.index "version" = .num 3

/-- Modelled from the specification words: the field exists with JSON
string type. -/
def specFieldString (j : Json) (k : String) : Prop :=
  ∃ s, j.index k = .str s

/-- Modelled from the specification words: the field exists with JSON
array type. -/
def specFieldArray (j : Json) (k : String) : Prop :=
  ∃ xs, j.index k = .arr xs

/-- A well-formed version-3 source-map document. -/
def goodDocV3 : Json :=
  .obj [("version", .num 3), ("file", .str "out.js"),
        ("sources", .arr [.str "src/a.ts"]),
        ("sourcesContent", .arr [.str "let x = 1;"]),
        ("names", .arr [.str "x"]), ("mappings", .str "AAAA")]

/-- The same document with the mappings field missing. -/
def noMappingsDoc : Json :=
  .obj [("version", .num 3), ("file", .str "out.js"),
        ("sources", .arr [.str "src/a.ts"]),
        ("sourcesContent", .arr [.str "let x = 1;"]),
        ("names", .arr [.str "x"])]

/-- `HashSet::insert` modeled as an insertion-ordered duplicate-free
list: the membership behavior of the Rust set is preserved, only its
run-dependent iteration order is fixed to insertion order. -/
def hsInsert (s : List Json) (x : Json) : List Json :=
  if x ∈ s then s else s ++ [x]

/-- `set.extend(value.as_array().unwrap_or(&vec![]).iter().cloned())`. -/
def hsExtend (s : List Json) (xs : List Json) : List Json :=
  xs.foldl hsInsert s

/-- One iteration of the accumulation loop of `merge_source_maps`:
sources, sourcesContent and names extend their sets from the
corresponding arrays of the document, and its `mappings` string is
appended to the list. -/
def mergeStep (acc : List Json × List Json × List Json × List String) (j : Json) :
    List Json × List Json × List Json × List String :=
  (hsExtend acc.1 (j.index "sources").asArrD,
   hsExtend acc.2.1 (j.index "sourcesContent").asArrD,
   hsExtend acc.2.2.1 (j.index "names").asArrD,
   acc.2.2.2 ++ [(j.index "mappings").asStrD])

/-- The accumulation loop of `merge_source_maps` over the input
documents. -/
def mergeAccum (maps : List Json) :
    List Json × List Json × List Json × List String :=
  maps.foldl mergeStep ([], [], [], [])

/-- `merge_source_maps` of src/src/src/sourcemap.rs: version 3, the fixed
file placeholder, the deduplicated unions, and the concatenation of the
mapping strings in input order. -/
def merge_source_maps (maps : List Json) : Json :=
  let acc := mergeAccum maps
  .obj [("version", .num 3),
        ("file", .str "merged.js"),
        ("sources", .arr acc.1),
        ("sourcesContent", .arr acc.2.1),
        ("names", .arr acc.2.2.1),
        ("mappings", .str (String.join acc.2.2.2))]

/-! ## `splitter.rs`: `generate_random_string`, `split_code`, `write_manifest`

The thread-local random generator is a stream of pre-sampled alphanumeric
characters.  File creation and writing are recorded in an append-only
write log (a `File::create` of an existing path overwrites it, so the
current content of an output path is its last logged write).  Directory
creation has no observable effect in the model. -/

/-- `generate_random_string` of src/src/src/bundler/splitter.rs: take the
next `length` characters of the sampled stream. -/
def generate_random_string (length : Nat) (rng : List Char) : String × List Char :=
  (String.mk (rng.take length), rng.drop length)

/-- `write_manifest` of src/src/src/bundler/splitter.rs: the `writeln!`
loop emits one `name: path` line per chunk record, in list order. -/
def write_manifest : List (String × String) → String
  | [] => ""
  | nm :: rest => nm.1 ++ ": " ++ nm.2 ++ "\n" ++ write_manifest rest

/-- The mutable state threaded through `split_code`: the seen set, the
chunk metadata vector, the write log of created output files (in write
order), and the remaining random stream. -/
structure SplitSt where
  seen : List String
  chunks : List (String × String)
  writes : List (String × String)
  rng : List Char
deriving DecidableEq, Repr

/-- The current content of an output path: the last write wins
(`File::create` truncates an existing file). -/
def lastWrite (writes : List (String × String)) (p : String) : Option String :=
  (writes.reverse.find? fun w => w.1 = p).map fun w => w.2

/-- The loop of `split_code` over the captured import statements,
parameterized by the recursive call `rec`.  For an existing import the
target is first split recursively, then a random chunk name is drawn, the
bucket folder is chosen by the file extension of the target (unknown
extensions are skipped by the `continue`, after the random draw), its
own import statement is replaced by a `loadChunk` call, the chunk file is
written with the raw content of the target, and the chunk record is
appended. -/
def splitImports (rec : String → SplitSt → Except String SplitSt)
    (fs : SrcFS) (entryFile outputDir : String) :
    List String → List Frag → SplitSt → Except String (List Frag × SplitSt)
  | [], remaining, st => .ok (remaining, st)
  | i :: rest, remaining, st =>
    let full := pjoin (parentDir entryFile) i
    match fs.read full with
    | none => splitImports rec fs entryFile outputDir rest remaining st
    | some targetContent =>
      match rec full st with
      | .error e => .error e
      | .ok st1 =>
        let drawn := generate_random_string 6 st1.rng
        let st2 : SplitSt := { st1 with rng := drawn.2 }
        let chunkName := "chunk_" ++ drawn.1 ++ "." ++ ((extOf full).getD "")
        match (extOf full).bind (fun e =>
            if e = "css" ∨ e = "html" ∨ e = "js" then some e else none) with
        | none => splitImports rec fs entryFile outputDir rest remaining st2
        | some ext =>
          let chunkFolder := pjoin outputDir ext
          let chunkPath := pjoin chunkFolder chunkName
          let loader := "loadChunk(\x27" ++ chunkName ++ "\x27);"
          let remaining' := replaceImp remaining i loader
          let st3 : SplitSt :=
            { st2 with
              writes := st2.writes ++ [(chunkPath, renderContent targetContent)],
              chunks := st2.chunks ++ [(chunkName, chunkPath)] }
          splitImports rec fs entryFile outputDir rest remaining' st3

/-- `split_code` of src/src/src/bundler/splitter.rs: skip an already-seen
entry, otherwise mark it seen, read it, process its captured imports, and
write the remaining code of the entry to the output directory under the
file name of the entry. -/
def split_code : Nat → SrcFS → String → String → SplitSt → Except String SplitSt
  | 0, _, _, _, _ => .error "fuel"
  | fuel + 1, fs, entryFile, outputDir, st =>
    if entryFile ∈ st.seen then .ok st
    else
      let st1 : SplitSt := { st with seen := entryFile :: st.seen }
      match fs.read entryFile with
      | none => .error ("Unable to read file " ++ entryFile)
      | some code =>
        match splitImports (fun p s => split_code fuel fs p outputDir s)
            fs entryFile outputDir (capturesOf code) code st1 with
        | .error e => .error e
        | .ok (remaining, st2) =>
          .ok { st2 with
                writes := st2.writes ++ [(pjoin outputDir (fileName entryFile), renderContent remaining)] }

/-- The diamond-dependency scenario of the specification: the entry
app.js imports a.js and b.js, and both import shared.js.  The keys are
the literal path strings the bundler computes by joining against the
parent directory, as the Rust `HashSet<PathBuf>` also compares them. -/
def diamondFS : SrcFS :=
  [("/p/app.js", [.text "A0", .imp "./a.js", .text "A1", .imp "./b.js", .text "A2"]),
   ("/p/./a.js", [.text "a0", .imp "./shared.js", .text "a1"]),
   ("/p/./b.js", [.text "b0", .imp "./shared.js", .text "b1"]),
   ("/p/././shared.js", [.text "S"])]

/-- An environment with no variables set. -/
def noEnv : Env := fun _ => none

/-- An environment with only RESOLVED_PATH set. -/
def rpEnv (v : String) : Env := fun k => if k = "RESOLVED_PATH" then some v else none

/-- A resolver configuration with no fallback extensions. -/
def emptyConfig : RConfig := ⟨[], []⟩

/-- A filesystem for the traversal scenario: the project root is /proj,
and /secrets/key is an existing writable file outside it; canonicalization
normalizes the dot-dot path to it. -/
def secFS : VFS :=
  ⟨[("/secrets/key", ⟨true, false⟩)],
   [("/proj/src/../../secrets/key", "/secrets/key")]⟩

/-- A filesystem for the environment-override scenario: both the ambient
override target and the locally resolved import exist as writable files. -/
def envFS : VFS :=
  ⟨[("/elsewhere/mod.js", ⟨true, false⟩), ("/proj/src/./local.js", ⟨true, false⟩)], []⟩

/-- Two mapping records on distinct generated lines. -/
def exMappings : List Mapping :=
  [⟨1, 0, 1, 0, some 0⟩, ⟨2, 5, 2, 10, some 1⟩]

/-- One sampled random stream (all letter A). -/
def rngA : List Char := List.replicate 12 'A'

/-- Another sampled random stream (all letter B). -/
def rngB : List Char := List.replicate 12 'B'

/-- A splitting scenario: main.js imports util.js. -/
def utilFS : SrcFS :=
  [("src/main.js", [.text "M0", .imp "./util.js", .text "M1"]),
   ("src/./util.js", [.text "U"])]

/-- A collision scenario: main.js imports two distinct modules, so two
chunk names are drawn from the random stream. -/
def collideFS : SrcFS :=
  [("src/main.js", [.text "M0", .imp "./u1.js", .text "M1", .imp "./u2.js", .text "M2"]),
   ("src/./u1.js", [.text "U1"]),
   ("src/./u2.js", [.text "U2"])]

/-- The bundler run exposed against the run-to-run nondeterminism
sources: the sampled random stream and the hash-map iteration order are
passed but never consumed, since `bundle_js_file` samples no randomness
and iterates no hash map. -/
def bundleRun (fuel : Nat) (fs : SrcFS) (path : String)
    (_rng : List Char) (_keyOrder : List Nat) :
    Except BErr (String × List String × List String) :=
  bundle_js_file fuel fs path []

/-! # Lemmas and claim theorems -/

/-! ## Worklist invariants of the tree shaker -/

theorem graphW_mono (nodes : Graph) (r r' : List String)
    (h : ∀ x, x ∈ r → x ∈ r') :
    graphW nodes r' ≤ graphW nodes r := by
  induction nodes with
  | nil => simp [graphW]
  | cons kv rest ih =>
    have hkv : nodeW r' kv ≤ nodeW r kv := by
      unfold nodeW
      by_cases hk : kv.1 ∈ r
      · simp [hk, h _ hk]
      · by_cases hk' : kv.1 ∈ r' <;> simp [hk, hk']
    simp only [graphW, List.map_cons, List.sum_cons] at ih ⊢
    omega

theorem graphW_insert_some (nodes : Graph) (r : List String) (id : String)
    (hid : id ∉ r) (deps : List String) (hdeps : nodes.lookup id = some deps) :
    graphW nodes (id :: r) + deps.length + 1 ≤ graphW nodes r := by
  induction nodes with
  | nil => simp [List.lookup] at hdeps
  | cons kv rest ih =>
    obtain ⟨k, v⟩ := kv
    simp only [graphW, List.map_cons, List.sum_cons]
    by_cases hk : k = id
    · have hd : deps = v := by
        simpa [List.lookup, hk.symm] using hdeps.symm
      have h1 : nodeW (id :: r) (k, v) = 0 := by simp [nodeW, hk]
      have h2 : nodeW r (k, v) = v.length + 1 := by
        have : k ∉ r := by rw [hk]; exact hid
        simp [nodeW, this]
      have hrest : graphW rest (id :: r) ≤ graphW rest r :=
        graphW_mono rest r (id :: r) (fun x hx => by simp [hx])
      simp only [graphW] at hrest
      rw [h1, h2, hd]
      omega
    · have hlook : rest.lookup id = some deps := by
        have hne : (id == k) = false := by
          simp [Ne.symm hk]
        simpa [List.lookup, hne] using hdeps
      have := ih hlook
      have hkv : nodeW (id :: r) (k, v) = nodeW r (k, v) := by
        unfold nodeW
        by_cases hk2 : k ∈ r
        · simp [hk2]
        · have : k ∉ id :: r := by
            simp only [List.mem_cons]
            push_neg
            exact ⟨hk, hk2⟩
          simp [hk2, this]
      simp only [graphW] at this
      rw [hkv]
      omega

theorem graphW_insert_none (nodes : Graph) (r : List String) (id : String)
    (hdeps : nodes.lookup id = none) :
    graphW nodes (id :: r) = graphW nodes r := by
  induction nodes with
  | nil => simp [graphW]
  | cons kv rest ih =>
    obtain ⟨k, v⟩ := kv
    have hk : ¬(id = k) := by
      intro h
      simp [List.lookup, h] at hdeps
    have hlook : rest.lookup id = none := by
      have hne : (id == k) = false := by simp [hk]
      simpa [List.lookup, hne] using hdeps
    have hkv : nodeW (id :: r) (k, v) = nodeW r (k, v) := by
      unfold nodeW
      by_cases hk2 : k ∈ r
      · simp [hk2]
      · have : k ∉ id :: r := by
          simp only [List.mem_cons]
          push_neg
          exact ⟨fun h => hk h.symm, hk2⟩
        simp [hk2, this]
    simp only [graphW, List.map_cons, List.sum_cons] at ih ⊢
    rw [hkv, ih hlook]

/-- One insertion step of the loop strictly shrinks the measure: the weight
released by marking `id` covers all of its pushed dependencies. -/
theorem pushesW_le (nodes : Graph) (r : List String) (id : String) (hid : id ∉ r) :
    ((depsOf nodes id).filter fun d => d ∉ (id :: r)).length +
      graphW nodes (id :: r) ≤ graphW nodes r := by
  rcases hlook : nodes.lookup id with _ | deps
  · have hdeps : depsOf nodes id = [] := by simp [depsOf, hlook]
    rw [hdeps, graphW_insert_none nodes r id hlook]
    simp
  · have hdeps : depsOf nodes id = deps := by simp [depsOf, hlook]
    have h1 := graphW_insert_some nodes r id hid deps hlook
    have hlen : (deps.filter fun d => d ∉ (id :: r)).length ≤ deps.length :=
      List.length_filter_le _ _
    rw [hdeps]
    omega

/-- Fuel sufficiency: the tree-shaker loop drains its stack whenever the
fuel exceeds the measure. -/
theorem treeShakerLoop_suff (nodes : Graph) :
    ∀ fuel r tv, tsMeasure nodes r tv < fuel →
      (treeShakerLoop fuel nodes r tv).isSome = true := by
  intro fuel
  induction fuel with
  | zero => intro r tv h; omega
  | succ fuel ih =>
    intro r tv h
    match tv with
    | [] => simp [treeShakerLoop]
    | id :: rest =>
      by_cases hid : id ∈ r
      · simp only [treeShakerLoop, hid, if_true]
        apply ih
        unfold tsMeasure at h ⊢
        simp only [List.length_cons] at h
        omega
      · simp only [treeShakerLoop, hid, if_false]
        apply ih
        unfold tsMeasure at h ⊢
        simp only [List.length_cons] at h
        simp only [List.length_append, List.length_reverse]
        have := pushesW_le nodes r id hid
        omega

/-- Identifiers already marked reachable stay in the final result. -/
theorem treeShakerLoop_sub (nodes : Graph) :
    ∀ fuel r tv res, treeShakerLoop fuel nodes r tv = some res →
      ∀ x ∈ r, x ∈ res := by
  intro fuel
  induction fuel with
  | zero => intro r tv res h; simp [treeShakerLoop] at h
  | succ fuel ih =>
    intro r tv res h x hx
    cases tv with
    | nil =>
      simp only [treeShakerLoop, Option.some.injEq] at h
      rw [← h]; exact hx
    | cons id rest =>
      by_cases hid : id ∈ r
      · simp only [treeShakerLoop, hid, if_true] at h
        exact ih r rest res h x hx
      · simp only [treeShakerLoop, hid, if_false] at h
        exact ih _ _ res h x (by simp [hx])

/-- Every pending stack entry lands in the final result. -/
theorem treeShakerLoop_visit (nodes : Graph) :
    ∀ fuel r tv res, treeShakerLoop fuel nodes r tv = some res →
      ∀ x ∈ tv, x ∈ res := by
  intro fuel
  induction fuel with
  | zero => intro r tv res h; simp [treeShakerLoop] at h
  | succ fuel ih =>
    intro r tv res h x hx
    cases tv with
    | nil => simp at hx
    | cons id rest =>
      rcases List.mem_cons.mp hx with hx1 | hx2
      · by_cases hid : id ∈ r
        · simp only [treeShakerLoop, hid, if_true] at h
          exact treeShakerLoop_sub nodes fuel r rest res h x (hx1 ▸ hid)
        · simp only [treeShakerLoop, hid, if_false] at h
          exact treeShakerLoop_sub nodes fuel _ _ res h x (by simp [hx1])
      · by_cases hid : id ∈ r
        · simp only [treeShakerLoop, hid, if_true] at h
          exact ih r rest res h x hx2
        · simp only [treeShakerLoop, hid, if_false] at h
          exact ih _ _ res h x (by simp [hx2])

/-- Soundness of the loop relative to any dependency-closed predicate that
holds on the current reachable set and stack. -/
theorem treeShakerLoop_sound (nodes : Graph) (G : String → Prop)
    (hcl : ∀ y, G y → ∀ d ∈ depsOf nodes y, G d) :
    ∀ fuel r tv res, treeShakerLoop fuel nodes r tv = some res →
      (∀ a ∈ r, G a) → (∀ t ∈ tv, G t) → ∀ x ∈ res, G x := by
  intro fuel
  induction fuel with
  | zero => intro r tv res h; simp [treeShakerLoop] at h
  | succ fuel ih =>
    intro r tv res h hr htv x hx
    cases tv with
    | nil =>
      simp only [treeShakerLoop, Option.some.injEq] at h
      exact hr x (h ▸ hx)
    | cons id rest =>
      by_cases hid : id ∈ r
      · simp only [treeShakerLoop, hid, if_true] at h
        exact ih r rest res h hr (fun t ht => htv t (by simp [ht])) x hx
      · simp only [treeShakerLoop, hid, if_false] at h
        have hGid : G id := htv id (by simp)
        refine ih _ _ res h ?_ ?_ x hx
        · intro a ha
          rcases List.mem_cons.mp ha with ha1 | ha2
          · exact ha1 ▸ hGid
          · exact hr a ha2
        · intro t ht
          rcases List.mem_append.mp ht with ht1 | ht2
          · have := List.mem_reverse.mp ht1
            exact hcl id hGid t (List.mem_of_mem_filter this)
          · exact htv t (by simp [ht2])

/-- The final result is dependency-closed whenever the pending stack covers
all unexplored dependencies of the current reachable set. -/
theorem treeShakerLoop_closed (nodes : Graph) :
    ∀ fuel r tv res, treeShakerLoop fuel nodes r tv = some res →
      (∀ a ∈ r, ∀ d ∈ depsOf nodes a, d ∈ r ∨ d ∈ tv) →
      ∀ a ∈ res, ∀ d ∈ depsOf nodes a, d ∈ res := by
  intro fuel
  induction fuel with
  | zero => intro r tv res h; simp [treeShakerLoop] at h
  | succ fuel ih =>
    intro r tv res h hcl a ha d hd
    cases tv with
    | nil =>
      simp only [treeShakerLoop, Option.some.injEq] at h
      subst h
      rcases hcl a ha d hd with h1 | h1
      · exact h1
      · simp at h1
    | cons id rest =>
      by_cases hid : id ∈ r
      · simp only [treeShakerLoop, hid, if_true] at h
        refine ih r rest res h ?_ a ha d hd
        intro b hb e he
        rcases hcl b hb e he with h1 | h1
        · exact Or.inl h1
        · rcases List.mem_cons.mp h1 with h2 | h2
          · exact Or.inl (h2 ▸ hid)
          · exact Or.inr h2
      · simp only [treeShakerLoop, hid, if_false] at h
        refine ih _ _ res h ?_ a ha d hd
        intro b hb e he
        rcases List.mem_cons.mp hb with hb1 | hb2
        · by_cases hein : e ∈ id :: r
          · exact Or.inl hein
          · refine Or.inr (List.mem_append.mpr (Or.inl ?_))
            rw [List.mem_reverse]
            refine List.mem_filter.mpr ⟨hb1 ▸ he, ?_⟩
            simpa using hein
        · rcases hcl b hb2 e he with h1 | h1
          · exact Or.inl (by simp [h1])
          · rcases List.mem_cons.mp h1 with h2 | h2
            · exact Or.inl (by simp [h2])
            · exact Or.inr (List.mem_append.mpr (Or.inr h2))

/-- The loop never duplicates an identifier in its reachable accumulator. -/
theorem treeShakerLoop_nodup (nodes : Graph) :
    ∀ fuel r tv res, treeShakerLoop fuel nodes r tv = some res →
      r.Nodup → res.Nodup := by
  intro fuel
  induction fuel with
  | zero => intro r tv res h; simp [treeShakerLoop] at h
  | succ fuel ih =>
    intro r tv res h hr
    cases tv with
    | nil =>
      simp only [treeShakerLoop, Option.some.injEq] at h
      exact h ▸ hr
    | cons id rest =>
      by_cases hid : id ∈ r
      · simp only [treeShakerLoop, hid, if_true] at h
        exact ih r rest res h hr
      · simp only [treeShakerLoop, hid, if_false] at h
        exact ih _ _ res h (List.nodup_cons.mpr ⟨hid, hr⟩)

/-- The weight of the whole graph with nothing marked reachable. -/
theorem graphW_nil (nodes : Graph) :
    graphW nodes [] = (nodes.map fun kv => kv.2.length + 1).sum := by
  induction nodes with
  | nil => simp [graphW]
  | cons kv rest ih =>
    simp only [graphW, List.map_cons, List.sum_cons] at ih ⊢
    rw [ih]
    simp [nodeW]

/-- `tree_shaker` is given enough fuel to drain its stack. -/
theorem tree_shaker_terminates (nodes : Graph) (entryPoints : List String) :
    (treeShakerLoop (tsBound nodes entryPoints.reverse) nodes []
      entryPoints.reverse).isSome = true := by
  apply treeShakerLoop_suff
  unfold tsMeasure tsBound
  rw [graphW_nil]
  omega

/-- The membership characterization of the tree shaker: exactly the
identifiers reachable from the entry points. -/
theorem mem_tree_shaker (nodes : Graph) (entryPoints : List String) (x : String) :
    x ∈ tree_shaker nodes entryPoints ↔ SpecReachable nodes entryPoints x := by
  have hsome := tree_shaker_terminates nodes entryPoints
  rcases hres : treeShakerLoop (tsBound nodes entryPoints.reverse) nodes []
      entryPoints.reverse with _ | res
  · rw [hres] at hsome; simp at hsome
  · have hts : tree_shaker nodes entryPoints = res := by
      unfold tree_shaker
      rw [hres]
      rfl
    rw [hts]
    constructor
    · intro hx
      refine treeShakerLoop_sound nodes (SpecReachable nodes entryPoints) ?_ _ _ _ res hres ?_ ?_ x hx
      · intro y hy d hd
        exact SpecReachable.step d y hy hd
      · intro a ha; simp at ha
      · intro t ht
        exact SpecReachable.entry t (List.mem_reverse.mp ht)
    · intro hx
      induction hx with
      | entry y hy =>
        exact treeShakerLoop_visit nodes _ _ _ res hres y (List.mem_reverse.mpr hy)
      | step y z hz hdep ihz =>
        exact treeShakerLoop_closed nodes _ _ _ res hres (by simp) z ihz y hdep

/-- The tree-shaker result has no duplicates. -/
theorem tree_shaker_nodup (nodes : Graph) (entryPoints : List String) :
    (tree_shaker nodes entryPoints).Nodup := by
  rcases hres : treeShakerLoop (tsBound nodes entryPoints.reverse) nodes []
      entryPoints.reverse with _ | res
  · unfold tree_shaker
    rw [hres]
    simp
  · have hts : tree_shaker nodes entryPoints = res := by
      unfold tree_shaker
      rw [hres]
      rfl
    rw [hts]
    exact treeShakerLoop_nodup nodes _ _ _ res hres (by simp)

/-! ## Bundler invariants -/

theorem SrcFS.read_mem_keys (fs : SrcFS) (p : String) (c : List Frag)
    (h : fs.read p = some c) : p ∈ fs.keys := by
  induction fs with
  | nil => simp [SrcFS.read] at h
  | cons kv rest ih =>
    obtain ⟨q, d⟩ := kv
    by_cases hq : q = p
    · simp [SrcFS.keys, hq]
    · simp only [SrcFS.read, hq, if_false] at h
      simp [SrcFS.keys, ih h]

theorem bMeasure_mono (fs : SrcFS) (seen seen' : List String)
    (h : ∀ x, x ∈ seen → x ∈ seen') : bMeasure fs seen' ≤ bMeasure fs seen := by
  apply Finset.card_le_card
  apply Finset.sdiff_subset_sdiff (le_refl _)
  intro x hx
  simp only [List.mem_toFinset] at hx ⊢
  exact h x hx

theorem bMeasure_insert (fs : SrcFS) (seen : List String) (p : String)
    (hmem : p ∈ fs.keys) (hnew : p ∉ seen) :
    bMeasure fs (p :: seen) < bMeasure fs seen := by
  unfold bMeasure
  have h1 : (p :: seen).toFinset = insert p seen.toFinset := by simp
  rw [h1, Finset.sdiff_insert]
  apply Finset.card_erase_lt_of_mem
  simp [hmem, hnew]

/-- The seen set only grows along a successful bundler run. -/
theorem bundle_seen_mono :
    ∀ fuel (fs : SrcFS) path seen out seen' reads,
      bundle_js_file fuel fs path seen = .ok (out, seen', reads) →
      ∀ x ∈ seen, x ∈ seen' := by
  intro fuel
  induction fuel with
  | zero => intro fs path seen out seen' reads h; simp [bundle_js_file] at h
  | succ fuel ih =>
    intro fs path seen out seen' reads h
    have hloop : ∀ caps mod s m s' r,
        bundleImports (bundle_js_file fuel) fs path caps mod s = .ok (m, s', r) →
        ∀ x ∈ s, x ∈ s' := by
      intro caps
      induction caps with
      | nil =>
        intro mod s m s' r hl x hx
        simp only [bundleImports, Except.ok.injEq, Prod.mk.injEq] at hl
        rw [← hl.2.1]; exact hx
      | cons i rest ihc =>
        intro mod s m s' r hl x hx
        simp only [bundleImports] at hl
        by_cases hex : (fs.read (pjoin (parentDir path) i)).isSome = true
        · simp only [hex, if_true] at hl
          rcases hrec : bundle_js_file fuel fs (pjoin (parentDir path) i) s with _ | ⟨icode, s1, r1⟩
          · rw [hrec] at hl; simp at hl
          · rw [hrec] at hl
            simp only at hl
            rcases hrest : bundleImports (bundle_js_file fuel) fs path rest
                (replaceImp mod i icode) s1 with _ | ⟨m2, s2, r2⟩
            · rw [hrest] at hl; simp at hl
            · rw [hrest] at hl
              simp only [Except.ok.injEq, Prod.mk.injEq] at hl
              have hx1 := ih fs _ s icode s1 r1 hrec x hx
              have hx2 := ihc (replaceImp mod i icode) s1 m2 s2 r2 hrest x hx1
              rw [← hl.2.1]; exact hx2
        · simp only [hex, if_false] at hl
          exact ihc mod s m s' r hl x hx
    simp only [bundle_js_file] at h
    by_cases hseen : path ∈ seen
    · simp only [hseen, if_true, Except.ok.injEq, Prod.mk.injEq] at h
      intro x hx
      rw [← h.2.1]; exact hx
    · simp only [hseen, if_false] at h
      rcases hread : fs.read path with _ | code
      · rw [hread] at h; simp at h
      · rw [hread] at h
        simp only at h
        rcases hl : bundleImports (bundle_js_file fuel) fs path (capturesOf code)
            code (path :: seen) with _ | ⟨modified, seen2, reads0⟩
        · rw [hl] at h; simp at h
        · rw [hl] at h
          simp only [Except.ok.injEq, Prod.mk.injEq] at h
          intro x hx
          have := hloop _ _ _ _ _ _ hl x (by simp [hx])
          rw [← h.2.1]; exact this

/-- Fuel sufficiency for the recursive bundler: with fuel above the number
of unread source files the recursion never runs out (it can only stop at a
read failure or succeed). -/
theorem bundle_fuel_suff :
    ∀ fuel (fs : SrcFS) path seen, bMeasure fs seen < fuel →
      bundle_js_file fuel fs path seen ≠ .error .fuel := by
  intro fuel
  induction fuel with
  | zero => intro fs path seen h; omega
  | succ fuel ih =>
    intro fs path seen h
    have hloop : ∀ caps mod s, bMeasure fs s < fuel →
        bundleImports (bundle_js_file fuel) fs path caps mod s ≠ .error .fuel := by
      intro caps
      induction caps with
      | nil =>
        intro mod s hs
        simp [bundleImports]
      | cons i rest ihc =>
        intro mod s hs
        simp only [bundleImports]
        by_cases hex : (fs.read (pjoin (parentDir path) i)).isSome = true
        · simp only [hex, if_true]
          rcases hrec : bundle_js_file fuel fs (pjoin (parentDir path) i) s with e | ⟨icode, s1, r1⟩
          · intro hcon
            simp only at hcon
            have := ih fs (pjoin (parentDir path) i) s hs
            rw [hrec] at this
            injection hcon with he
            exact this (by rw [he])
          · simp only
            rcases hrest : bundleImports (bundle_js_file fuel) fs path rest
                (replaceImp mod i icode) s1 with e | ⟨m2, s2, r2⟩
            · intro hcon
              simp only at hcon
              have hs1 : bMeasure fs s1 < fuel := by
                have := bundle_seen_mono fuel fs _ s icode s1 r1 hrec
                exact lt_of_le_of_lt (bMeasure_mono fs s s1 this) hs
              have := ihc (replaceImp mod i icode) s1 hs1
              rw [hrest] at this
              injection hcon with he
              exact this (by rw [he])
            · simp
        · simp only [hex, if_false]
          exact ihc mod s hs
    simp only [bundle_js_file]
    by_cases hseen : path ∈ seen
    · simp [hseen]
    · simp only [hseen, if_false]
      rcases hread : fs.read path with _ | code
      · simp
      · simp only
        have hmem : path ∈ fs.keys := SrcFS.read_mem_keys fs path code hread
        have hs1 : bMeasure fs (path :: seen) < fuel := by
          have := bMeasure_insert fs seen path hmem hseen
          omega
        rcases hl : bundleImports (bundle_js_file fuel) fs path (capturesOf code)
            code (path :: seen) with e | ⟨modified, seen2, reads0⟩
        · intro hcon
          simp only at hcon
          have := hloop (capturesOf code) code (path :: seen) hs1
          rw [hl] at this
          injection hcon with he
          exact this (by rw [he])
        · simp

/-! ## Claim theorems for the tree shaker -/

/-- Claim C5: for every dependency graph and every set of entry
identities, the tree shaker returns exactly the set of identities
reachable from the entries (a node is in the result iff it is an entry or
a transitive dependency of one); in particular, with entry A and edges
A to B plus an unreferenced node C, the result is exactly the set of A
and B, and C is pruned from the output graph. -/
theorem tree_shaker_exact_reachability :
    (∀ (nodes : Graph) (entryPoints : List String) (x : String),
        x ∈ tree_shaker nodes entryPoints ↔ SpecReachable nodes entryPoints x)
    ∧ tree_shaker exGraphABC ["A"] = ["B", "A"]
    ∧ remove_unreachable_nodes exGraphABC (tree_shaker exGraphABC ["A"]) =
        [("A", ["B"]), ("B", [])]
    ∧ (remove_unreachable_nodes exGraphABC (tree_shaker exGraphABC ["A"])).lookup "C" =
        none :=
  ⟨mem_tree_shaker, by decide, by decide, by decide⟩

/-- Claim C3: for every dependency graph containing a cycle, graph
construction and recursive bundling terminate (with any fuel above the
explicit measure, so the already-discovered check prevents looping), and
each member of the cycle that the entries reach appears exactly once in
the final reachable set. -/
theorem cycle_traversal_terminates_once (nodes : Graph) (entryPoints : List String)
    (x : String) (hcyc : DepPath nodes x x)
    (hreach : SpecReachable nodes entryPoints x) :
    (treeShakerLoop (tsBound nodes entryPoints.reverse) nodes []
        entryPoints.reverse).isSome = true
    ∧ (tree_shaker nodes entryPoints).count x = 1
    ∧ ∀ (fs : SrcFS) (path : String) (seen : List String) (fuel : Nat),
        bMeasure fs seen < fuel → bundle_js_file fuel fs path seen ≠ .error .fuel := by
  refine ⟨tree_shaker_terminates nodes entryPoints, ?_, ?_⟩
  · exact List.count_eq_one_of_mem (tree_shaker_nodup nodes entryPoints)
      ((mem_tree_shaker nodes entryPoints x).mpr hreach)
  · intro fs path seen fuel hfuel
    exact bundle_fuel_suff fuel fs path seen hfuel

/-- Witness for claim C3 at the concrete cycle A imports B imports A with
entry A. -/
theorem cycle_traversal_terminates_once_witness :
    (treeShakerLoop (tsBound cycleGraphAB ["A"].reverse) cycleGraphAB []
        ["A"].reverse).isSome = true
    ∧ (tree_shaker cycleGraphAB ["A"]).count "A" = 1
    ∧ ∀ (fs : SrcFS) (path : String) (seen : List String) (fuel : Nat),
        bMeasure fs seen < fuel → bundle_js_file fuel fs path seen ≠ .error .fuel :=
  cycle_traversal_terminates_once cycleGraphAB ["A"] "A"
    (DepPath.cons "A" "B" "A" (by decide) (DepPath.edge "B" "A" (by decide)))
    (SpecReachable.entry "A" (by decide))

/-! ## Claim theorems for the recursive bundler on the diamond scenario -/

/-- Claim C1 counterexample: in the concrete diamond scenario the bundler
produces the inlined concatenation and its output contains no occurrence
of a double slash at all, so it contains no path comment for app.js,
a.js, b.js or shared.js, refuting the claim that the final bundle holds a
path comment for each module. -/
theorem diamond_no_path_comments :
    bundle_js_file 10 diamondFS "/p/app.js" [] =
      .ok ("A0a0S\na1\nA1b0b1\nA2\n",
        ["/p/./b.js", "/p/././shared.js", "/p/./a.js", "/p/app.js"],
        ["/p/app.js", "/p/./a.js", "/p/././shared.js", "/p/./b.js"])
    ∧ strCount "A0a0S\na1\nA1b0b1\nA2\n" "//" = 0
    ∧ strCount "A0a0S\na1\nA1b0b1\nA2\n" "// /p/app.js" = 0 := by
  refine ⟨by rfl, by decide, by decide⟩

/-- Claim C1 amended: in the diamond scenario the bundler reads shared.js
exactly once (the second reference yields the cached empty splice), every
module is read exactly once in discovery order app, a, shared, b, and the
final bundle contains the content of each module exactly once, inlined in
place of the import statements rather than introduced by path comments. -/
theorem diamond_reads_once_content_once :
    bundle_js_file 10 diamondFS "/p/app.js" [] =
      .ok ("A0a0S\na1\nA1b0b1\nA2\n",
        ["/p/./b.js", "/p/././shared.js", "/p/./a.js", "/p/app.js"],
        ["/p/app.js", "/p/./a.js", "/p/././shared.js", "/p/./b.js"])
    ∧ ["/p/app.js", "/p/./a.js", "/p/././shared.js", "/p/./b.js"].count
        "/p/././shared.js" = 1
    ∧ ["/p/app.js", "/p/./a.js", "/p/././shared.js", "/p/./b.js"].count
        "/p/app.js" = 1
    ∧ strCount "A0a0S\na1\nA1b0b1\nA2\n" "S" = 1
    ∧ strCount "A0a0S\na1\nA1b0b1\nA2\n" "A0" = 1
    ∧ strCount "A0a0S\na1\nA1b0b1\nA2\n" "a0" = 1
    ∧ strCount "A0a0S\na1\nA1b0b1\nA2\n" "b0" = 1 := by
  refine ⟨by rfl, by decide, by decide, by decide, by decide, by decide, by decide⟩

/-! ## Claim theorems for the resolver -/

/-- Claim C4 counterexample: an import reference whose resolved path
canonicalizes outside the project root /proj is not rejected: because the
resolver has no root-containment check, the existing writable file
/secrets/key is returned as a usable path. -/
theorem resolve_outside_root_accepted :
    resolve_path secFS noEnv (.ok emptyConfig) "/proj/src/main.js" "../../secrets/key" =
      "/secrets/key"
    ∧ leadsWith "/secrets/key".data "/proj".data = false
    ∧ resolve_path secFS noEnv (.ok emptyConfig) "/proj/src/main.js" "../../secrets/key" ≠
        "" := by
  refine ⟨by decide, by decide, by decide⟩

/-- Claim C4 amended: with a loadable configuration, resolution fails with
the empty rejection string exactly when the computed candidate path fails
the existence-and-permission check of verify_path_security; no project
root containment is checked. -/
theorem resolve_path_rejects_iff_insecure (fs : VFS) (env : Env) (config : RConfig)
    (base importPath : String)
    (hne : resolveCandidate fs env config base importPath ≠ "") :
    resolve_path fs env (.ok config) base importPath = "" ↔
      verify_path_security fs (resolveCandidate fs env config base importPath) = false := by
  unfold resolve_path pluginResolve
  rcases h : verify_path_security fs (resolveCandidate fs env config base importPath) with _ | _
  · simp [h]
  · simp [h, hne]

/-- Witness for claim C4 amended at the traversal scenario input. -/
theorem resolve_path_rejects_iff_insecure_witness :
    resolveCandidate secFS noEnv emptyConfig "/proj/src/main.js" "../../secrets/key" ≠ ""
    ∧ (resolve_path secFS noEnv (.ok emptyConfig) "/proj/src/main.js" "../../secrets/key" = "" ↔
        verify_path_security secFS
          (resolveCandidate secFS noEnv emptyConfig "/proj/src/main.js" "../../secrets/key") =
            false) :=
  ⟨by decide,
   resolve_path_rejects_iff_insecure secFS noEnv emptyConfig
     "/proj/src/main.js" "../../secrets/key" (by decide)⟩

/-- Claim C10: whenever the RESOLVED_PATH environment variable is set, the
resolver discards the computed resolution and returns the ambient value,
subject only to the final security check; consequently two runs that
differ only in that environment variable resolve the same import to
different paths. -/
theorem resolve_env_var_overrides (fs : VFS) (env : Env) (config : RConfig)
    (base importPath v : String) (henv : env "RESOLVED_PATH" = some v) :
    (resolve_path fs env (.ok config) base importPath =
        if verify_path_security fs v then v else "")
    ∧ resolve_path envFS (rpEnv "/elsewhere/mod.js") (.ok emptyConfig)
          "/proj/src/main.js" "./local.js" ≠
        resolve_path envFS noEnv (.ok emptyConfig) "/proj/src/main.js" "./local.js" := by
  constructor
  · have hc : resolveCandidate fs env config base importPath = v := by
      unfold resolveCandidate load_env_variable_path
      rw [henv]
    unfold resolve_path pluginResolve
    rcases h : verify_path_security fs v with _ | _
    · simp [hc, h]
    · simp [hc, h]
  · decide

/-- Witness for claim C10 with RESOLVED_PATH set to /elsewhere/mod.js. -/
theorem resolve_env_var_overrides_witness :
    (rpEnv "/elsewhere/mod.js") "RESOLVED_PATH" = some "/elsewhere/mod.js"
    ∧ (resolve_path envFS (rpEnv "/elsewhere/mod.js") (.ok emptyConfig)
          "/proj/src/main.js" "./local.js" =
        if verify_path_security envFS "/elsewhere/mod.js" then "/elsewhere/mod.js" else "")
    ∧ resolve_path envFS (rpEnv "/elsewhere/mod.js") (.ok emptyConfig)
          "/proj/src/main.js" "./local.js" ≠
        resolve_path envFS noEnv (.ok emptyConfig) "/proj/src/main.js" "./local.js" := by
  refine ⟨rfl, ?_, ?_⟩
  · exact (resolve_env_var_overrides envFS (rpEnv "/elsewhere/mod.js") emptyConfig
      "/proj/src/main.js" "./local.js" "/elsewhere/mod.js" rfl).1
  · exact (resolve_env_var_overrides envFS (rpEnv "/elsewhere/mod.js") emptyConfig
      "/proj/src/main.js" "./local.js" "/elsewhere/mod.js" rfl).2

/-! ## Claim theorems for source-map validation -/

theorem json_isStr_iff (v : Json) : v.isStr = true ↔ ∃ s, v = .str s := by
  cases v <;> simp [Json.isStr]

theorem json_isArr_iff (v : Json) : v.isArr = true ↔ ∃ xs, v = .arr xs := by
  cases v <;> simp [Json.isArr]

theorem json_version_iff (v : Json) :
    (v.isNum && decide (v.asU64 = some 3 ∨ v.asU64 = some 2)) = true ↔
      (v = .num 2 ∨ v = .num 3) := by
  cases v with
  | num n =>
    by_cases hn : (0 : Int) ≤ n
    · simp [Json.isNum, Json.asU64, hn, Json.num.injEq]
      omega
    · simp [Json.isNum, Json.asU64, hn, Json.num.injEq]
      omega
  | null => simp [Json.isNum]
  | bool b => simp [Json.isNum]
  | str s => simp [Json.isNum]
  | arr xs => simp [Json.isNum]
  | obj kvs => simp [Json.isNum]

theorem except_unit_error_iff (e : Except String Unit) :
    (∃ msg, e = .error msg) ↔ ¬(e = .ok ()) := by
  cases e with
  | error m => simp
  | ok u => cases u; simp

/-- The positive form of validation: success exactly under the six
field conditions of the specification. -/
theorem validate_ok_iff (j : Json) :
    validate_source_map j = .ok () ↔
      (specVersionSupported j ∧ specFieldString j "file" ∧ specFieldArray j "sources"
        ∧ specFieldArray j "sourcesContent" ∧ specFieldArray j "names"
        ∧ specFieldString j "mappings") := by
  have hv := json_version_iff (j.index "version")
  have hf := json_isStr_iff (j.index "file")
  have hs := json_isArr_iff (j.index "sources")
  have hsc := json_isArr_iff (j.index "sourcesContent")
  have hn := json_isArr_iff (j.index "names")
  have hm := json_isStr_iff (j.index "mappings")
  unfold validate_source_map
  split_ifs with h1 h2 h3 h4 h5 h6
  · simp only [Bool.not_eq_eq_eq_not, Bool.not_true] at h1
    constructor
    · intro h; exact absurd h (by simp)
    · intro hc
      have hx := hv.mpr hc.1
      rw [h1] at hx
      cases hx
  · simp only [Bool.not_eq_eq_eq_not, Bool.not_true] at h2
    constructor
    · intro h; exact absurd h (by simp)
    · intro hc
      have hx := hf.mpr hc.2.1
      rw [h2] at hx
      cases hx
  · simp only [Bool.not_eq_eq_eq_not, Bool.not_true] at h3
    constructor
    · intro h; exact absurd h (by simp)
    · intro hc
      have hx := hs.mpr hc.2.2.1
      rw [h3] at hx
      cases hx
  · simp only [Bool.not_eq_eq_eq_not, Bool.not_true] at h4
    constructor
    · intro h; exact absurd h (by simp)
    · intro hc
      have hx := hsc.mpr hc.2.2.2.1
      rw [h4] at hx
      cases hx
  · simp only [Bool.not_eq_eq_eq_not, Bool.not_true] at h5
    constructor
    · intro h; exact absurd h (by simp)
    · intro hc
      have hx := hn.mpr hc.2.2.2.2.1
      rw [h5] at hx
      cases hx
  · simp only [Bool.not_eq_eq_eq_not, Bool.not_true] at h6
    constructor
    · intro h; exact absurd h (by simp)
    · intro hc
      have hx := hm.mpr hc.2.2.2.2.2
      rw [h6] at hx
      cases hx
  · simp only [Bool.not_eq_true, Bool.not_eq_false'] at h1 h2 h3 h4 h5 h6
    simp only [true_iff]
    exact ⟨hv.mp h1, hf.mp h2, hs.mp h3, hsc.mp h4, hn.mp h5, hm.mp h6⟩

/-- Claim C6: loading a source-map document fails with a malformed
source-map condition exactly when the version is not a supported number or
one of the file, sources, sourcesContent, names, mappings fields is
missing or has the wrong JSON type; in particular a document lacking
mappings fails and a well-formed version-3 document passes. -/
theorem validate_malformed_iff :
    (∀ j : Json, (∃ msg, validate_source_map j = .error msg) ↔
        ¬(specVersionSupported j ∧ specFieldString j "file" ∧ specFieldArray j "sources"
          ∧ specFieldArray j "sourcesContent" ∧ specFieldArray j "names"
          ∧ specFieldString j "mappings"))
    ∧ validate_source_map noMappingsDoc = .error "Missing or invalid mappings field"
    ∧ validate_source_map goodDocV3 = .ok () := by
  refine ⟨?_, by rfl, by rfl⟩
  intro j
  rw [except_unit_error_iff]
  exact not_congr (validate_ok_iff j)

/-! ## Claim theorems for source-map merging -/

theorem mem_hsInsert (s : List Json) (x y : Json) :
    y ∈ hsInsert s x ↔ y ∈ s ∨ y = x := by
  by_cases h : x ∈ s
  · simp only [hsInsert, h, if_true]
    constructor
    · exact Or.inl
    · rintro (h1 | rfl)
      · exact h1
      · exact h
  · simp [hsInsert, h]

theorem hsInsert_nodup (s : List Json) (x : Json) (hs : s.Nodup) :
    (hsInsert s x).Nodup := by
  by_cases h : x ∈ s
  · simpa [hsInsert, h] using hs
  · simp [hsInsert, h, List.nodup_append, hs]

theorem mem_hsExtend (xs : List Json) :
    ∀ (s : List Json) (y : Json), y ∈ hsExtend s xs ↔ y ∈ s ∨ y ∈ xs := by
  induction xs with
  | nil => intro s y; simp [hsExtend]
  | cons a as ih =>
    intro s y
    have : hsExtend s (a :: as) = hsExtend (hsInsert s a) as := rfl
    rw [this, ih (hsInsert s a) y, mem_hsInsert]
    constructor
    · rintro ((h1 | rfl) | h2)
      · exact Or.inl h1
      · exact Or.inr (by simp)
      · exact Or.inr (by simp [h2])
    · rintro (h1 | h2)
      · exact Or.inl (Or.inl h1)
      · rcases List.mem_cons.mp h2 with rfl | h3
        · exact Or.inl (Or.inr rfl)
        · exact Or.inr h3

theorem hsExtend_nodup (xs : List Json) :
    ∀ (s : List Json), s.Nodup → (hsExtend s xs).Nodup := by
  induction xs with
  | nil => intro s hs; simpa [hsExtend] using hs
  | cons a as ih =>
    intro s hs
    have : hsExtend s (a :: as) = hsExtend (hsInsert s a) as := rfl
    rw [this]
    exact ih (hsInsert s a) (hsInsert_nodup s a hs)

/-- The joint characterization of the merge accumulation fold. -/
theorem mergeFold_spec (maps : List Json) :
    ∀ acc : List Json × List Json × List Json × List String,
      (∀ y, y ∈ (maps.foldl mergeStep acc).1 ↔
          y ∈ acc.1 ∨ ∃ j ∈ maps, y ∈ (j.index "sources").asArrD)
      ∧ (∀ y, y ∈ (maps.foldl mergeStep acc).2.1 ↔
          y ∈ acc.2.1 ∨ ∃ j ∈ maps, y ∈ (j.index "sourcesContent").asArrD)
      ∧ (∀ y, y ∈ (maps.foldl mergeStep acc).2.2.1 ↔
          y ∈ acc.2.2.1 ∨ ∃ j ∈ maps, y ∈ (j.index "names").asArrD)
      ∧ (maps.foldl mergeStep acc).2.2.2 =
          acc.2.2.2 ++ maps.map (fun j => (j.index "mappings").asStrD)
      ∧ (acc.1.Nodup → (maps.foldl mergeStep acc).1.Nodup)
      ∧ (acc.2.1.Nodup → (maps.foldl mergeStep acc).2.1.Nodup)
      ∧ (acc.2.2.1.Nodup → (maps.foldl mergeStep acc).2.2.1.Nodup) := by
  induction maps with
  | nil =>
    intro acc
    refine ⟨?_, ?_, ?_, by simp, fun h => h, fun h => h, fun h => h⟩ <;> simp
  | cons j rest ih =>
    intro acc
    have hstep : (j :: rest).foldl mergeStep acc = rest.foldl mergeStep (mergeStep acc j) := rfl
    obtain ⟨i1, i2, i3, i4, i5, i6, i7⟩ := ih (mergeStep acc j)
    rw [hstep]
    refine ⟨?_, ?_, ?_, ?_, ?_, ?_, ?_⟩
    · intro y
      rw [i1 y]
      simp only [mergeStep, mem_hsExtend]
      constructor
      · rintro ((h1 | h2) | h3)
        · exact Or.inl h1
        · exact Or.inr ⟨j, by simp, h2⟩
        · obtain ⟨k, hk, hy⟩ := h3
          exact Or.inr ⟨k, by simp [hk], hy⟩
      · rintro (h1 | ⟨k, hk, hy⟩)
        · exact Or.inl (Or.inl h1)
        · rcases List.mem_cons.mp hk with rfl | hk2
          · exact Or.inl (Or.inr hy)
          · exact Or.inr ⟨k, hk2, hy⟩
    · intro y
      rw [i2 y]
      simp only [mergeStep, mem_hsExtend]
      constructor
      · rintro ((h1 | h2) | h3)
        · exact Or.inl h1
        · exact Or.inr ⟨j, by simp, h2⟩
        · obtain ⟨k, hk, hy⟩ := h3
          exact Or.inr ⟨k, by simp [hk], hy⟩
      · rintro (h1 | ⟨k, hk, hy⟩)
        · exact Or.inl (Or.inl h1)
        · rcases List.mem_cons.mp hk with rfl | hk2
          · exact Or.inl (Or.inr hy)
          · exact Or.inr ⟨k, hk2, hy⟩
    · intro y
      rw [i3 y]
      simp only [mergeStep, mem_hsExtend]
      constructor
      · rintro ((h1 | h2) | h3)
        · exact Or.inl h1
        · exact Or.inr ⟨j, by simp, h2⟩
        · obtain ⟨k, hk, hy⟩ := h3
          exact Or.inr ⟨k, by simp [hk], hy⟩
      · rintro (h1 | ⟨k, hk, hy⟩)
        · exact Or.inl (Or.inl h1)
        · rcases List.mem_cons.mp hk with rfl | hk2
          · exact Or.inl (Or.inr hy)
          · exact Or.inr ⟨k, hk2, hy⟩
    · rw [i4]
      simp [mergeStep]
    · intro h
      exact i5 (hsExtend_nodup _ _ h)
    · intro h
      exact i6 (hsExtend_nodup _ _ h)
    · intro h
      exact i7 (hsExtend_nodup _ _ h)

/-- Claim C7: merging source-map documents produces a document whose
sources, sourcesContent and names are the deduplicated set unions of the
inputs, whose mappings string is the concatenation of the input mapping
strings in input order, and whose file name is the fixed placeholder
merged.js (with version 3). -/
theorem merge_source_maps_union_concat (maps : List Json) :
    (∀ y, y ∈ ((merge_source_maps maps).index "sources").asArrD ↔
        ∃ j ∈ maps, y ∈ (j.index "sources").asArrD)
    ∧ ((merge_source_maps maps).index "sources").asArrD.Nodup
    ∧ (∀ y, y ∈ ((merge_source_maps maps).index "sourcesContent").asArrD ↔
        ∃ j ∈ maps, y ∈ (j.index "sourcesContent").asArrD)
    ∧ ((merge_source_maps maps).index "sourcesContent").asArrD.Nodup
    ∧ (∀ y, y ∈ ((merge_source_maps maps).index "names").asArrD ↔
        ∃ j ∈ maps, y ∈ (j.index "names").asArrD)
    ∧ ((merge_source_maps maps).index "names").asArrD.Nodup
    ∧ (merge_source_maps maps).index "mappings" =
        .str (String.join (maps.map fun j => (j.index "mappings").asStrD))
    ∧ (merge_source_maps maps).index "file" = .str "merged.js"
    ∧ (merge_source_maps maps).index "version" = .num 3 := by
  obtain ⟨i1, i2, i3, i4, i5, i6, i7⟩ := mergeFold_spec maps ([], [], [], [])
  have hs : ((merge_source_maps maps).index "sources").asArrD = (mergeAccum maps).1 := rfl
  have hsc : ((merge_source_maps maps).index "sourcesContent").asArrD =
      (mergeAccum maps).2.1 := rfl
  have hn : ((merge_source_maps maps).index "names").asArrD = (mergeAccum maps).2.2.1 := rfl
  have hm : (merge_source_maps maps).index "mappings" =
      .str (String.join (mergeAccum maps).2.2.2) := rfl
  refine ⟨?_, ?_, ?_, ?_, ?_, ?_, ?_, rfl, rfl⟩
  · intro y
    rw [hs]
    simpa using i1 y
  · rw [hs]
    exact i5 (by simp)
  · intro y
    rw [hsc]
    simpa using i2 y
  · rw [hsc]
    exact i6 (by simp)
  · intro y
    rw [hn]
    simpa using i3 y
  · rw [hn]
    exact i7 (by simp)
  · rw [hm]
    have : (mergeAccum maps).2.2.2 = maps.map (fun j => (j.index "mappings").asStrD) := by
      have := i4
      simpa [mergeAccum] using this
    rw [this]

/-! ## Claim theorems for run-to-run determinism -/

/-- Claim C2 counterexample: the serialized mappings string changes with
the hash-map iteration order over the generated-line keys, and the chunk
names in the manifest change with the sampled random stream, so the
serialized artifacts are not independent of run-to-run nondeterminism. -/
theorem run_nondeterminism_leaks :
    generate_mappings_string exMappings [1, 2] ≠ generate_mappings_string exMappings [2, 1]
    ∧ (split_code 5 utilFS "src/main.js" "dist" ⟨[], [], [], rngA⟩).toOption.map
          (fun st => write_manifest st.chunks) ≠
        (split_code 5 utilFS "src/main.js" "dist" ⟨[], [], [], rngB⟩).toOption.map
          (fun st => write_manifest st.chunks) := by
  refine ⟨by decide, by decide⟩

/-- Claim C2 amended: the bundler output is a function of the input files
alone, independent of the sampled random stream and of any hash-map
iteration order, while the manifest chunk names depend on the random
stream and the serialized mappings string depends on the hash iteration
order over generated lines. -/
theorem bundle_content_run_independent :
    (∀ (fuel : Nat) (fs : SrcFS) (path : String) (rng1 rng2 : List Char)
        (order1 order2 : List Nat),
        bundleRun fuel fs path rng1 order1 = bundleRun fuel fs path rng2 order2)
    ∧ generate_mappings_string exMappings [1, 2] ≠ generate_mappings_string exMappings [2, 1]
    ∧ (split_code 5 utilFS "src/main.js" "dist" ⟨[], [], [], rngA⟩).toOption.map
          (fun st => write_manifest st.chunks) ≠
        (split_code 5 utilFS "src/main.js" "dist" ⟨[], [], [], rngB⟩).toOption.map
          (fun st => write_manifest st.chunks) := by
  refine ⟨fun _ _ _ _ _ _ _ => rfl, by decide, by decide⟩

/-! ## Claim theorems for chunk-name collisions -/

/-- Claim C8 counterexample: a run of the splitter whose sampled stream
repeats produces two chunks with the same generated name and the build
still succeeds, so a chunk-name collision is not fatal. -/
theorem chunk_collision_not_fatal :
    (split_code 5 collideFS "src/main.js" "dist" ⟨[], [], [], rngA⟩).toOption.map
        SplitSt.chunks =
      some [("chunk_AAAAAA.js", "dist/js/chunk_AAAAAA.js"),
            ("chunk_AAAAAA.js", "dist/js/chunk_AAAAAA.js")]
    ∧ (split_code 5 collideFS "src/main.js" "dist" ⟨[], [], [], rngA⟩).isOk = true := by
  refine ⟨by decide, by decide⟩

/-- Claim C8 amended: chunk names are six random alphanumeric characters
with no collision handling; when two drawn names collide, the second
chunk file silently overwrites the first at the shared path (the first
written content is lost from the final file state), both manifest records
are kept, and no error is raised. -/
theorem chunk_collision_overwrites :
    (split_code 5 collideFS "src/main.js" "dist" ⟨[], [], [], rngA⟩).toOption.map
        SplitSt.chunks =
      some [("chunk_AAAAAA.js", "dist/js/chunk_AAAAAA.js"),
            ("chunk_AAAAAA.js", "dist/js/chunk_AAAAAA.js")]
    ∧ (split_code 5 collideFS "src/main.js" "dist" ⟨[], [], [], rngA⟩).toOption.map
          (fun st => st.writes.count ("dist/js/chunk_AAAAAA.js", "U1")) = some 1
    ∧ (split_code 5 collideFS "src/main.js" "dist" ⟨[], [], [], rngA⟩).toOption.map
          (fun st => lastWrite st.writes "dist/js/chunk_AAAAAA.js") = some (some "U2")
    ∧ (split_code 5 collideFS "src/main.js" "dist" ⟨[], [], [], rngA⟩).toOption.map
          (fun st => write_manifest st.chunks) =
        some ("chunk_AAAAAA.js: dist/js/chunk_AAAAAA.js\n" ++
              "chunk_AAAAAA.js: dist/js/chunk_AAAAAA.js\n")
    ∧ ("U1" : String) ≠ "U2" := by
  refine ⟨by decide, by decide, by decide, by decide, by decide⟩

/-! ## Claim theorems for code splitting -/

theorem replaceImp_text_mem (c : List Frag) (i r s : String)
    (h : Frag.text s ∈ c) : Frag.text s ∈ replaceImp c i r := by
  unfold replaceImp
  exact List.mem_map.mpr ⟨Frag.text s, h, rfl⟩

theorem replaceImp_imp_not_self (c : List Frag) (i r : String) :
    Frag.imp i ∉ replaceImp c i r := by
  intro hmem
  unfold replaceImp at hmem
  obtain ⟨a, ha, hg⟩ := List.mem_map.mp hmem
  cases a with
  | text t => simp at hg
  | imp j =>
    by_cases hj : j = i
    · simp [hj] at hg
    · simp [hj] at hg

theorem replaceImp_imp_not_mem (c : List Frag) (i j r : String)
    (h : Frag.imp i ∉ c) : Frag.imp i ∉ replaceImp c j r := by
  intro hmem
  unfold replaceImp at hmem
  obtain ⟨a, ha, hg⟩ := List.mem_map.mp hmem
  cases a with
  | text t => simp at hg
  | imp k =>
    by_cases hk : k = j
    · simp [hk] at hg
    · simp [hk] at hg
      rw [hg] at ha
      exact h ha

theorem replaceImp_imp_mem_ne (c : List Frag) (i j r : String) (hne : i ≠ j)
    (h : Frag.imp i ∈ c) : Frag.imp i ∈ replaceImp c j r := by
  unfold replaceImp
  exact List.mem_map.mpr ⟨Frag.imp i, h, by simp [hne]⟩

theorem replaceImp_text_new (c : List Frag) (i r : String)
    (h : Frag.imp i ∈ c) : Frag.text r ∈ replaceImp c i r := by
  unfold replaceImp
  exact List.mem_map.mpr ⟨Frag.imp i, h, by simp⟩

theorem mem_capturesOf (c : List Frag) (i : String) :
    i ∈ capturesOf c ↔ Frag.imp i ∈ c := by
  rw [capturesOf, List.mem_filterMap]
  constructor
  · rintro ⟨a, ha, hf⟩
    cases a with
    | text t => simp at hf
    | imp p =>
      simp only [Option.some.injEq] at hf
      rw [← hf]
      exact ha
  · intro h
    exact ⟨Frag.imp i, h, rfl⟩

theorem write_manifest_append (a b : List (String × String)) :
    write_manifest (a ++ b) = write_manifest a ++ write_manifest b := by
  induction a with
  | nil => simp [write_manifest]
  | cons nm rest ih =>
    simp [write_manifest, ih, String.append_assoc]

/-- State monotonicity of the import-splitting loop: the seen set only
grows, chunk records and write-log entries are only appended, text
fragments survive, and absent import fragments stay absent. -/
theorem splitImports_mono
    (rec : String → SplitSt → Except String SplitSt)
    (hrec : ∀ p st st', rec p st = .ok st' →
      (∀ x ∈ st.seen, x ∈ st'.seen) ∧ (∃ d, st'.chunks = st.chunks ++ d) ∧
      (∃ d, st'.writes = st.writes ++ d))
    (fs : SrcFS) (entryFile outputDir : String) :
    ∀ caps rem st rem' st',
      splitImports rec fs entryFile outputDir caps rem st = .ok (rem', st') →
      (∀ x ∈ st.seen, x ∈ st'.seen) ∧
      (∃ d, st'.chunks = st.chunks ++ d) ∧
      (∃ d, st'.writes = st.writes ++ d) ∧
      (∀ s, Frag.text s ∈ rem → Frag.text s ∈ rem') ∧
      (∀ i, Frag.imp i ∉ rem → Frag.imp i ∉ rem') := by
  intro caps
  induction caps with
  | nil =>
    intro rem st rem' st' h
    simp only [splitImports, Except.ok.injEq, Prod.mk.injEq] at h
    obtain ⟨h1, h2⟩ := h
    subst h1
    subst h2
    exact ⟨fun x hx => hx, ⟨[], by simp⟩, ⟨[], by simp⟩, fun s hs => hs, fun i hi => hi⟩
  | cons i rest ih =>
    intro rem st rem' st' h
    simp only [splitImports] at h
    rcases hread : fs.read (pjoin (parentDir entryFile) i) with _ | tc
    · rw [hread] at h
      simp only at h
      exact ih rem st rem' st' h
    · rw [hread] at h
      simp only at h
      rcases hrun : rec (pjoin (parentDir entryFile) i) st with e | st1
      · rw [hrun] at h
        simp at h
      · rw [hrun] at h
        simp only at h
        obtain ⟨hseen1, ⟨d1, hc1⟩, ⟨w1, hw1⟩⟩ := hrec _ _ _ hrun
        rcases hext : (extOf (pjoin (parentDir entryFile) i)).bind (fun e =>
            if e = "css" ∨ e = "html" ∨ e = "js" then some e else none) with _ | ext
        · rw [hext] at h
          simp only at h
          obtain ⟨hs2, ⟨d2, hc2⟩, ⟨w2, hw2⟩, ht2, hi2⟩ := ih _ _ _ _ h
          refine ⟨?_, ⟨d1 ++ d2, ?_⟩, ⟨w1 ++ w2, ?_⟩, ht2, hi2⟩
          · intro x hx
            exact hs2 x (hseen1 x hx)
          · rw [hc2]
            simp only
            rw [hc1, List.append_assoc]
          · rw [hw2]
            simp only
            rw [hw1, List.append_assoc]
        · rw [hext] at h
          simp only at h
          obtain ⟨hs2, ⟨d2, hc2⟩, ⟨w2, hw2⟩, ht2, hi2⟩ := ih _ _ _ _ h
          refine ⟨?_, ?_, ?_, ?_, ?_⟩
          · intro x hx
            exact hs2 x (hseen1 x hx)
          · refine ⟨d1 ++ [("chunk_" ++ (generate_random_string 6 st1.rng).1 ++ "." ++
              ((extOf (pjoin (parentDir entryFile) i)).getD ""),
              pjoin (pjoin outputDir ext) ("chunk_" ++ (generate_random_string 6 st1.rng).1 ++ "." ++
              ((extOf (pjoin (parentDir entryFile) i)).getD "")))] ++ d2, ?_⟩
            rw [hc2]
            simp only
            rw [hc1]
            simp [List.append_assoc]
          · refine ⟨w1 ++ [(pjoin (pjoin outputDir ext) ("chunk_" ++ (generate_random_string 6 st1.rng).1 ++ "." ++
              ((extOf (pjoin (parentDir entryFile) i)).getD "")), renderContent tc)] ++ w2, ?_⟩
            rw [hw2]
            simp only
            rw [hw1]
            simp [List.append_assoc]
          · intro s hs
            exact ht2 s (replaceImp_text_mem rem i _ s hs)
          · intro k hk
            exact hi2 k (replaceImp_imp_not_mem rem k i _ hk)

/-- State monotonicity of `split_code`: the seen set only grows and chunk
records and write-log entries are only appended. -/
theorem split_code_mono :
    ∀ fuel (fs : SrcFS) (outputDir p : String) (st st' : SplitSt),
      split_code fuel fs p outputDir st = .ok st' →
      (∀ x ∈ st.seen, x ∈ st'.seen) ∧ (∃ d, st'.chunks = st.chunks ++ d) ∧
      (∃ d, st'.writes = st.writes ++ d) := by
  intro fuel
  induction fuel with
  | zero => intro fs outputDir p st st' h; simp [split_code] at h
  | succ fuel ih =>
    intro fs outputDir p st st' h
    simp only [split_code] at h
    by_cases hseen : p ∈ st.seen
    · simp only [hseen, if_true, Except.ok.injEq] at h
      subst h
      exact ⟨fun x hx => hx, ⟨[], by simp⟩, ⟨[], by simp⟩⟩
    · simp only [hseen, if_false] at h
      rcases hread : fs.read p with _ | code
      · rw [hread] at h
        simp at h
      · rw [hread] at h
        simp only at h
        rcases hloop : splitImports (fun q s => split_code fuel fs q outputDir s)
            fs p outputDir (capturesOf code) code { st with seen := p :: st.seen } with
          e | pr
        · rw [hloop] at h
          simp at h
        · obtain ⟨rem2, st2⟩ := pr
          rw [hloop] at h
          simp only [Except.ok.injEq] at h
          obtain ⟨hs2, ⟨d2, hc2⟩, ⟨w2, hw2⟩, -, -⟩ :=
            splitImports_mono _ (fun q s s' hq => ih fs outputDir q s s' hq)
              fs p outputDir _ _ _ _ _ hloop
          subst h
          refine ⟨?_, ⟨d2, ?_⟩, ⟨w2 ++ [(pjoin outputDir (fileName p), renderContent rem2)], ?_⟩⟩
          · intro x hx
            exact hs2 x (by simp [hx])
          · simpa using hc2
          · simp only
            rw [hw2]
            simp [List.append_assoc]

/-- Chunk creation along the import-splitting loop: every captured import
of an existing target with a bucketed extension gets a chunk record at
the bucket path, a write of the raw target content at that path, the
`loadChunk` replacement in the remaining code, and the disappearance of
its import statement. -/
theorem splitImports_creates
    (rec : String → SplitSt → Except String SplitSt)
    (hrec : ∀ p st st', rec p st = .ok st' →
      (∀ x ∈ st.seen, x ∈ st'.seen) ∧ (∃ d, st'.chunks = st.chunks ++ d) ∧
      (∃ d, st'.writes = st.writes ++ d))
    (fs : SrcFS) (entryFile outputDir : String) :
    ∀ caps rem st rem' st',
      splitImports rec fs entryFile outputDir caps rem st = .ok (rem', st') →
      ∀ i ∈ caps, ∀ tc, fs.read (pjoin (parentDir entryFile) i) = some tc →
        ∀ e, extOf (pjoin (parentDir entryFile) i) = some e →
          (e = "css" ∨ e = "html" ∨ e = "js") →
          ∃ n, (n, pjoin (pjoin outputDir e) n) ∈ st'.chunks
            ∧ (pjoin (pjoin outputDir e) n, renderContent tc) ∈ st'.writes
            ∧ (Frag.imp i ∈ rem → Frag.text ("loadChunk(\x27" ++ n ++ "\x27);") ∈ rem')
            ∧ Frag.imp i ∉ rem' := by
  intro caps
  induction caps with
  | nil =>
    intro rem st rem' st' h i hi
    simp at hi
  | cons j rest ih =>
    intro rem st rem' st' h i hi tc htc e hext hbucket
    simp only [splitImports] at h
    by_cases hij : i = j
    · subst hij
      rw [htc] at h
      simp only at h
      rcases hrun : rec (pjoin (parentDir entryFile) i) st with er | st1
      · rw [hrun] at h
        simp at h
      · rw [hrun] at h
        simp only at h
        rw [hext] at h
        simp only [Option.some_bind, Option.getD_some] at h
        rw [if_pos hbucket] at h
        simp only at h
        obtain ⟨-, ⟨d2, hc2⟩, ⟨w2, hw2⟩, ht2, hi2⟩ :=
          splitImports_mono rec hrec fs entryFile outputDir _ _ _ _ _ h
        refine ⟨"chunk_" ++ (generate_random_string 6 st1.rng).1 ++ "." ++ e, ?_, ?_, ?_, ?_⟩
        · rw [hc2]
          simp only
          refine List.mem_append.mpr (Or.inl ?_)
          exact List.mem_append.mpr (Or.inr (by simp))
        · rw [hw2]
          simp only
          refine List.mem_append.mpr (Or.inl ?_)
          exact List.mem_append.mpr (Or.inr (by simp))
        · intro hin
          exact ht2 _ (replaceImp_text_new rem i _ hin)
        · exact hi2 i (replaceImp_imp_not_self rem i _)
    · have hirest : i ∈ rest := by
        rcases List.mem_cons.mp hi with h1 | h2
        · exact absurd h1 hij
        · exact h2
      rcases hreadj : fs.read (pjoin (parentDir entryFile) j) with _ | tcj
      · rw [hreadj] at h
        simp only at h
        exact ih rem st rem' st' h i hirest tc htc e hext hbucket
      · rw [hreadj] at h
        simp only at h
        rcases hrun : rec (pjoin (parentDir entryFile) j) st with er | st1
        · rw [hrun] at h
          simp at h
        · rw [hrun] at h
          simp only at h
          rcases hextj : (extOf (pjoin (parentDir entryFile) j)).bind (fun e =>
              if e = "css" ∨ e = "html" ∨ e = "js" then some e else none) with _ | extj
          · rw [hextj] at h
            simp only at h
            exact ih rem _ rem' st' h i hirest tc htc e hext hbucket
          · rw [hextj] at h
            simp only at h
            obtain ⟨n, hn1, hn2, hn3, hn4⟩ := ih _ _ rem' st' h i hirest tc htc e hext hbucket
            refine ⟨n, hn1, hn2, ?_, hn4⟩
            intro hin
            exact hn3 (replaceImp_imp_mem_ne rem i j _ hij hin)

/-- Claim C9: for every module containing an import of an existing file
with a bucketed kind, a successful split run writes a chunk file under
the folder bucket of the file kind with the raw content of the target,
appends a (name, path) chunk record rendered by the manifest as
`name: path` lines in creation order after all chunks, and the assembled
output of the module, written last, carries a loadChunk call for the
generated chunk name in place of the import statement. -/
theorem split_code_creates_chunks (fuel : Nat) (fs : SrcFS)
    (entryFile outputDir : String) (st st' : SplitSt) (code : List Frag)
    (hseen : entryFile ∉ st.seen)
    (hcode : fs.read entryFile = some code)
    (hrun : split_code fuel fs entryFile outputDir st = .ok st') :
    ∃ rem' : List Frag,
      st'.writes.getLast? = some (pjoin outputDir (fileName entryFile), renderContent rem')
      ∧ (∃ d, st'.chunks = st.chunks ++ d
          ∧ write_manifest st'.chunks = write_manifest st.chunks ++ write_manifest d)
      ∧ ∀ i ∈ capturesOf code, ∀ tc, fs.read (pjoin (parentDir entryFile) i) = some tc →
          ∀ e, extOf (pjoin (parentDir entryFile) i) = some e →
            (e = "css" ∨ e = "html" ∨ e = "js") →
            ∃ n, (n, pjoin (pjoin outputDir e) n) ∈ st'.chunks
              ∧ (pjoin (pjoin outputDir e) n, renderContent tc) ∈ st'.writes
              ∧ Frag.text ("loadChunk(\x27" ++ n ++ "\x27);") ∈ rem'
              ∧ Frag.imp i ∉ rem' := by
  cases fuel with
  | zero => simp [split_code] at hrun
  | succ fuel =>
    simp only [split_code] at hrun
    rw [if_neg hseen, hcode] at hrun
    simp only at hrun
    rcases hloop : splitImports (fun q s => split_code fuel fs q outputDir s)
        fs entryFile outputDir (capturesOf code) code
        { st with seen := entryFile :: st.seen } with e | pr
    · rw [hloop] at hrun
      simp at hrun
    · obtain ⟨rem2, st2⟩ := pr
      rw [hloop] at hrun
      simp only [Except.ok.injEq] at hrun
      subst hrun
      have hrec : ∀ q s s', split_code fuel fs q outputDir s = .ok s' →
          (∀ x ∈ SplitSt.seen s, x ∈ SplitSt.seen s') ∧
          (∃ d, SplitSt.chunks s' = SplitSt.chunks s ++ d) ∧
          (∃ d, SplitSt.writes s' = SplitSt.writes s ++ d) :=
        fun q s s' hq => split_code_mono fuel fs outputDir q s s' hq
      refine ⟨rem2, ?_, ?_, ?_⟩
      · simp only
        exact List.getLast?_concat _
      · obtain ⟨-, ⟨d2, hc2⟩, -⟩ :=
          splitImports_mono _ hrec fs entryFile outputDir _ _ _ _ _ hloop
        simp only at hc2
        refine ⟨d2, by simpa using hc2, ?_⟩
        simp only
        rw [hc2]
        exact write_manifest_append st.chunks d2
      · intro i hi tc htc e hext hbucket
        obtain ⟨n, hn1, hn2, hn3, hn4⟩ :=
          splitImports_creates _ hrec fs entryFile outputDir _ _ _ _ _ hloop
            i hi tc htc e hext hbucket
        refine ⟨n, by simpa using hn1, ?_, ?_, hn4⟩
        · simp only
          exact List.mem_append.mpr (Or.inl hn2)
        · exact hn3 ((mem_capturesOf code i).mp hi)

/-- Witness for claim C9: the concrete run in which src/main.js imports
./util.js with the sampled stream of letter A. -/
theorem split_code_creates_chunks_witness :
    ∃ rem' : List Frag,
      (SplitSt.mk ["src/./util.js", "src/main.js"]
          [("chunk_AAAAAA.js", "dist/js/chunk_AAAAAA.js")]
          [("dist/util.js", "U"),
           ("dist/js/chunk_AAAAAA.js", "U"),
           ("dist/main.js", "M0loadChunk(\x27chunk_AAAAAA.js\x27);M1")]
          ['A', 'A', 'A', 'A', 'A', 'A']).writes.getLast? =
        some (pjoin "dist" (fileName "src/main.js"), renderContent rem')
      ∧ (∃ d, (SplitSt.mk ["src/./util.js", "src/main.js"]
          [("chunk_AAAAAA.js", "dist/js/chunk_AAAAAA.js")]
          [("dist/util.js", "U"),
           ("dist/js/chunk_AAAAAA.js", "U"),
           ("dist/main.js", "M0loadChunk(\x27chunk_AAAAAA.js\x27);M1")]
          ['A', 'A', 'A', 'A', 'A', 'A']).chunks = (SplitSt.mk [] [] [] rngA).chunks ++ d
          ∧ write_manifest (SplitSt.mk ["src/./util.js", "src/main.js"]
              [("chunk_AAAAAA.js", "dist/js/chunk_AAAAAA.js")]
              [("dist/util.js", "U"),
               ("dist/js/chunk_AAAAAA.js", "U"),
               ("dist/main.js", "M0loadChunk(\x27chunk_AAAAAA.js\x27);M1")]
              ['A', 'A', 'A', 'A', 'A', 'A']).chunks =
            write_manifest (SplitSt.mk [] [] [] rngA).chunks ++ write_manifest d)
      ∧ ∀ i ∈ capturesOf [Frag.text "M0", Frag.imp "./util.js", Frag.text "M1"],
          ∀ tc, utilFS.read (pjoin (parentDir "src/main.js") i) = some tc →
          ∀ e, extOf (pjoin (parentDir "src/main.js") i) = some e →
            (e = "css" ∨ e = "html" ∨ e = "js") →
            ∃ n, (n, pjoin (pjoin "dist" e) n) ∈
                (SplitSt.mk ["src/./util.js", "src/main.js"]
                  [("chunk_AAAAAA.js", "dist/js/chunk_AAAAAA.js")]
                  [("dist/util.js", "U"),
                   ("dist/js/chunk_AAAAAA.js", "U"),
                   ("dist/main.js", "M0loadChunk(\x27chunk_AAAAAA.js\x27);M1")]
                  ['A', 'A', 'A', 'A', 'A', 'A']).chunks
              ∧ (pjoin (pjoin "dist" e) n, renderContent tc) ∈
                (SplitSt.mk ["src/./util.js", "src/main.js"]
                  [("chunk_AAAAAA.js", "dist/js/chunk_AAAAAA.js")]
                  [("dist/util.js", "U"),
                   ("dist/js/chunk_AAAAAA.js", "U"),
                   ("dist/main.js", "M0loadChunk(\x27chunk_AAAAAA.js\x27);M1")]
                  ['A', 'A', 'A', 'A', 'A', 'A']).writes
              ∧ Frag.text ("loadChunk(\x27" ++ n ++ "\x27);") ∈ rem'
              ∧ Frag.imp i ∉ rem' :=
  split_code_creates_chunks 5 utilFS "src/main.js" "dist"
    (SplitSt.mk [] [] [] rngA)
    (SplitSt.mk ["src/./util.js", "src/main.js"]
      [("chunk_AAAAAA.js", "dist/js/chunk_AAAAAA.js")]
      [("dist/util.js", "U"),
       ("dist/js/chunk_AAAAAA.js", "U"),
       ("dist/main.js", "M0loadChunk(\x27chunk_AAAAAA.js\x27);M1")]
      ['A', 'A', 'A', 'A', 'A', 'A'])
    [Frag.text "M0", Frag.imp "./util.js", Frag.text "M1"]
    (by decide) (by rfl) (by rfl)

end Hyperpack
